import Mathlib

/-!
Verification development for the crash-recovery and page-materialization core:
a shallow embedding of `src/src/mongo/db/repl/replication_recovery.cpp`
(replication-log recovery) and `src/src/btree/bt_read.c` (page read and
lookaside instantiation), together with theorems about the embedded code.
-/

set_option maxHeartbeats 1000000

deriving instance DecidableEq for Except

namespace MongoRecovery

/-- Timestamps are modelled as naturals; `0` is the null timestamp (`Timestamp()`). -/
abbrev Ts := Nat

/-- Observable side effects of the recovery orchestrator, recorded in execution
order.  `applied ts` is the application of the oplog entry with timestamp `ts`;
`setApplied` is `ReplicationConsistencyMarkers::setAppliedThrough`;
`durableBarrier` is `recoveryUnit()->waitUntilDurable`;
`unjournaledBarrier` is `recoveryUnit()->waitUntilUnjournaledWritesDurable`. -/
inductive REvent where
  | applied (ts : Ts)
  | setOldest (ts : Ts)
  | setInitialData (ts : Ts)
  | setApplied (ts : Ts)
  | truncatedTo (ts : Ts)
  | clearedTruncatePoint
  | durableBarrier
  | unjournaledBarrier
deriving Repr, DecidableEq

/-- State visible to `ReplicationRecoveryImpl`: the durable oplog (a list of
entry timestamps, oldest first, strictly ascending in a well-formed store),
the consistency markers, the storage-engine timestamps, and a trace of the
side effects performed so far.  `appliedThrough` models the marker's
timestamp component (`0` = null `OpTime`). -/
structure RecState where
  oplog : List Ts
  appliedThrough : Ts
  truncateAfterPoint : Ts
  initialSyncFlag : Bool
  minValid : Ts
  initialDataTimestamp : Ts
  oldestTimestamp : Ts
  supportsRecoveryTimestamp : Bool
  recoveryTimestamp : Option Ts
  trace : List REvent
deriving Repr, DecidableEq

/-- Errors: `fatal n` models `fassertFailedNoTrace(n)` / `invariant` failures
(process termination); the other two model the `uassert`ed error codes in
`recoverFromOplogUpTo`. -/
inductive RecErr where
  | fatal (site : Nat)
  | initialSyncActive
  | badValue
deriving Repr, DecidableEq

/-- `ReplicationConsistencyMarkers::setAppliedThrough`. -/
def setAppliedThroughM (st : RecState) (ts : Ts) : RecState :=
  { st with appliedThrough := ts, trace := st.trace ++ [REvent.setApplied ts] }

/-- `StorageEngine::setOldestTimestamp`. -/
def setOldestTimestampM (st : RecState) (ts : Ts) : RecState :=
  { st with oldestTimestamp := ts, trace := st.trace ++ [REvent.setOldest ts] }

/-- `StorageInterface::setInitialDataTimestamp`. -/
def setInitialDataTimestampM (st : RecState) (ts : Ts) : RecState :=
  { st with initialDataTimestamp := ts, trace := st.trace ++ [REvent.setInitialData ts] }

/-- `recoveryUnit()->waitUntilUnjournaledWritesDurable`. -/
def unjournaledBarrierM (st : RecState) : RecState :=
  { st with trace := st.trace ++ [REvent.unjournaledBarrier] }

/-- The reverse oplog scan of `_truncateOplogTo`, on the reversed oplog
(newest entry first).  Returns the 1-based `count` at which the first entry
with `ts <= truncateTimestamp` was found, `none` when the scan reaches the
end of the oplog (the `fassertFailedNoTrace(40296)` path). -/
def truncateScan (truncateTimestamp : Ts) : List Ts → Nat → Option Nat
  | [], _ => none
  | ts :: rest, count =>
    if ts ≤ truncateTimestamp then some (count + 1)
    else truncateScan truncateTimestamp rest (count + 1)

/-- `ReplicationRecoveryImpl::_truncateOplogTo`.  Scans the oplog newest
first; on the first entry with `ts <= truncateTimestamp`, if it was the very
first entry examined (`count == 1`) nothing is truncated, otherwise
`cappedTruncateAfter(previousRecordId, inclusive)` removes the previously
examined entry and everything newer.  `none` models the fatal exit when no
entry at or before the timestamp exists. -/
def truncateOplogTo (log : List Ts) (truncateTimestamp : Ts) : Option (List Ts) :=
  match truncateScan truncateTimestamp log.reverse 0 with
  | none => none
  | some count =>
    if count = 1 then some log
    else some (log.take (log.length + 1 - count))

/-- `ReplicationRecoveryImpl::_truncateOplogIfNeededAndThenClearOplogTruncateAfterPoint`.
If the truncate-after point is null there is nothing to do.  Otherwise, when a
non-null stable timestamp exists and `truncatePoint <= stableTimestamp`, the
stable timestamp is used as the truncate point instead; the oplog is truncated,
the truncate-after point is cleared, and the clear is flushed with
`waitUntilDurable`. -/
def truncateOplogIfNeededAndThenClearOplogTruncateAfterPoint
    (st : RecState) (stableTimestamp : Option Ts) :
    Except (RecErr × RecState) RecState :=
  let truncatePoint := st.truncateAfterPoint
  if truncatePoint = 0 then .ok st
  else
    let truncatePoint :=
      match stableTimestamp with
      | some s => if s ≠ 0 ∧ truncatePoint ≤ s then s else truncatePoint
      | none => truncatePoint
    match truncateOplogTo st.oplog truncatePoint with
    | none => .error (.fatal 40296, st)
    | some log' =>
      .ok { st with
              oplog := log',
              truncateAfterPoint := 0,
              trace := st.trace ++
                [REvent.truncatedTo truncatePoint, REvent.clearedTruncatePoint,
                 REvent.durableBarrier] }

/-- Oplog-range predicate of `OplogBufferLocalOplog::startup`: `ts >= start`
and, when an end point is given, `ts <= end`. -/
def tsInRange (startPoint : Ts) (endPoint : Option Ts) (ts : Ts) : Bool :=
  decide (startPoint ≤ ts) &&
    (match endPoint with
     | some e => decide (ts ≤ e)
     | none => true)

/-- The entries yielded by the `OplogBufferLocalOplog` cursor, in ascending
timestamp order. -/
def oplogRange (log : List Ts) (startPoint : Ts) (endPoint : Option Ts) : List Ts :=
  log.filter (tsInRange startPoint endPoint)

/-- `ReplicationRecoveryImpl::_applyOplogOperations`, with the buffer startup
of `OplogBufferLocalOplog::startup` inlined: an empty cursor is fatal
(`40293`); a first entry different from the start point is fatal (`40292`);
otherwise the first entry is consumed without being applied, every later
entry is applied in order, and when at least one entry was applied
`setAppliedThrough` records the last applied optime.  Returns the applied-up-to
timestamp (`0` when nothing was applied). -/
def applyOplogOperations (st : RecState) (startPoint : Ts) (endPoint : Option Ts) :
    Except (RecErr × RecState) (RecState × Ts) :=
  match oplogRange st.oplog startPoint endPoint with
  | [] => .error (.fatal 40293, st)
  | first :: rest =>
    if first ≠ startPoint then .error (.fatal 40292, st)
    else
      let st1 := { st with trace := st.trace ++ rest.map REvent.applied }
      match rest.getLast? with
      | none => .ok (st1, 0)
      | some last => .ok (setAppliedThroughM st1 last, last)

/-- `ReplicationRecoveryImpl::_applyToEndOfOplog`. -/
def applyToEndOfOplog (st : RecState) (oplogApplicationStartPoint topOfOplog : Ts) :
    Except (RecErr × RecState) RecState :=
  if oplogApplicationStartPoint = 0 ∨ topOfOplog = 0 then .error (.fatal 1, st)
  else if oplogApplicationStartPoint = topOfOplog then .ok st
  else if topOfOplog < oplogApplicationStartPoint then .error (.fatal 40313, st)
  else
    match applyOplogOperations st oplogApplicationStartPoint (some topOfOplog) with
    | .error e => .error e
    | .ok (st1, appliedUpTo) =>
      if appliedUpTo = 0 then .error (.fatal 2, st1)
      else if appliedUpTo ≠ topOfOplog then .error (.fatal 3, st1)
      else .ok st1

/-- `ReplicationRecoveryImpl::_recoverFromUnstableCheckpoint`.  When
`appliedThrough` is null only the replay and the oldest-timestamp move are
skipped; the function then unconditionally sets the initial-data timestamp to
top-of-oplog, sets `appliedThrough` to top-of-oplog and forces the
unjournaled-writes durability barrier. -/
def recoverFromUnstableCheckpoint (st : RecState) (appliedThrough topOfOplog : Ts) :
    Except (RecErr × RecState) RecState :=
  if topOfOplog = 0 then .error (.fatal 4, st)
  else
    match
      (if appliedThrough = 0 then .ok st
       else
         applyToEndOfOplog (setOldestTimestampM st appliedThrough)
           appliedThrough topOfOplog :
        Except (RecErr × RecState) RecState)
    with
    | .error e => .error e
    | .ok st1 =>
      .ok (unjournaledBarrierM
            (setAppliedThroughM (setInitialDataTimestampM st1 topOfOplog) topOfOplog))

/-- `ReplicationRecoveryImpl::_recoverFromStableTimestamp`. -/
def recoverFromStableTimestamp (st : RecState) (stableTimestamp topOfOplog : Ts) :
    Except (RecErr × RecState) RecState :=
  if stableTimestamp = 0 ∨ topOfOplog = 0 then .error (.fatal 5, st)
  else applyToEndOfOplog st stableTimestamp topOfOplog

/-- `_getTopOfOplog`: the newest entry of the oplog (backward scan, one
document); `none` models `CollectionIsEmpty`. -/
def getTopOfOplog (st : RecState) : Option Ts :=
  st.oplog.getLast?

/-- `recoverFromOplogPrecursor`: fatal without recoverable-timestamp support
(`50805`), fatal on a stable checkpoint at a null timestamp (`50806`). -/
def recoverFromOplogPrecursor (st : RecState) :
    Except (RecErr × RecState) (Option Ts) :=
  if st.supportsRecoveryTimestamp = false then .error (.fatal 50805, st)
  else
    match st.recoveryTimestamp with
    | some 0 => .error (.fatal 50806, st)
    | r => .ok r

/-- `ReplicationRecoveryImpl::recoverFromOplogUpTo`.  The very first step
`uassert`s `InitialSyncActive` when the initial-sync flag is set; afterwards
it requires a stable checkpoint, truncates if needed, and replays from
`appliedThrough` up to the given end point. -/
def recoverFromOplogUpTo (st : RecState) (endPoint : Ts) :
    Except (RecErr × RecState) RecState :=
  if st.initialSyncFlag then .error (.initialSyncActive, st)
  else
    match recoverFromOplogPrecursor st with
    | .error e => .error e
    | .ok none => .error (.fatal 31399, st)
    | .ok (some recoveryTS) =>
      match truncateOplogIfNeededAndThenClearOplogTruncateAfterPoint st (some recoveryTS) with
      | .error e => .error e
      | .ok st1 =>
        let startPoint := st1.appliedThrough
        if startPoint = 0 then .ok st1
        else if endPoint = 0 then .error (.fatal 6, st1)
        else if startPoint = endPoint then .ok st1
        else if endPoint < startPoint then .error (.badValue, st1)
        else
          match applyOplogOperations st1 startPoint (some endPoint) with
          | .error e => .error e
          | .ok (st2, appliedUpTo) =>
            if appliedUpTo ≠ 0 ∧ endPoint < appliedUpTo then .error (.fatal 7, st2)
            else .ok st2

/-- `ReplicationRecoveryImpl::recoverFromOplog`. -/
def recoverFromOplog (st : RecState) (stableTimestamp : Option Ts) :
    Except (RecErr × RecState) RecState :=
  if st.initialSyncFlag then .ok st
  else
    let stableTimestamp :=
      if stableTimestamp = none ∧ st.supportsRecoveryTimestamp then st.recoveryTimestamp
      else stableTimestamp
    let appliedThrough := st.appliedThrough
    if ¬(stableTimestamp = none ∨ stableTimestamp = some 0 ∨ appliedThrough = 0 ∨
          stableTimestamp = some appliedThrough) then
      .error (.fatal 8, st)
    else
      match truncateOplogIfNeededAndThenClearOplogTruncateAfterPoint st stableTimestamp with
      | .error e => .error e
      | .ok st1 =>
        match getTopOfOplog st1 with
        | none => .ok st1
        | some topOfOplog =>
          match stableTimestamp with
          | some s => recoverFromStableTimestamp st1 s topOfOplog
          | none => recoverFromUnstableCheckpoint st1 appliedThrough topOfOplog

/-- Recovery state used as the C1 counterexample: `truncateAfterPoint = 80`,
stable timestamp `60`, oplog `[50, 60, 70, 80, 90]`. -/
def exC1 : RecState :=
  { oplog := [50, 60, 70, 80, 90], appliedThrough := 60, truncateAfterPoint := 80,
    initialSyncFlag := false, minValid := 0, initialDataTimestamp := 0,
    oldestTimestamp := 0, supportsRecoveryTimestamp := true,
    recoveryTimestamp := some 60, trace := [] }

/-- Recovery state used as the C2 counterexample: null `appliedThrough`,
non-empty oplog with top `70`. -/
def exC2 : RecState :=
  { oplog := [50, 60, 70], appliedThrough := 0, truncateAfterPoint := 0,
    initialSyncFlag := false, minValid := 0, initialDataTimestamp := 0,
    oldestTimestamp := 0, supportsRecoveryTimestamp := true,
    recoveryTimestamp := none, trace := [] }

/-- Recovery state used by the C5 witness. -/
def exC5 : RecState :=
  { oplog := [10, 20, 30], appliedThrough := 10, truncateAfterPoint := 0,
    initialSyncFlag := false, minValid := 0, initialDataTimestamp := 0,
    oldestTimestamp := 0, supportsRecoveryTimestamp := true,
    recoveryTimestamp := some 10, trace := [] }

end MongoRecovery

namespace WT

/-- `WT_UPDATE_DELETED_VALUE` (`UINT32_MAX`): sentinel value size marking a
lookaside value as a tombstone. -/
def WT_UPDATE_DELETED_VALUE : Nat := 4294967295

/-- `WT_RECNO_OOB`: the out-of-band record number. -/
def WT_RECNO_OOB : Nat := 0

/-- Page types relevant to `__las_page_instantiate`
(`WT_PAGE_COL_FIX`, `WT_PAGE_COL_VAR`, `WT_PAGE_ROW_LEAF`, anything else). -/
inductive PageType where
  | colFix
  | colVar
  | rowLeaf
  | other
deriving Repr, DecidableEq

/-- One lookaside record: the composite key
`(las_id, las_addr, las_key, las_txnid, las_counter)` together with its value
`(upd_txnid, upd_size, las_value)`.  Byte strings are lists of naturals. -/
structure LasEntry where
  lasId : Nat
  lasAddr : List Nat
  lasKey : List Nat
  lasTxnid : Nat
  lasCounter : Nat
  updTxnid : Nat
  updSize : Nat
  updValue : List Nat
deriving Repr, DecidableEq

/-- `WT_UPDATE`: transaction id plus value, `none` standing for
`WT_UPDATE_DELETED_ISSET` (a tombstone). -/
structure WTUpdate where
  txnid : Nat
  value : Option (List Nat)
deriving Repr, DecidableEq

/-- `__wt_update_alloc` on a lookaside record: a deleted-value sentinel size
allocates a tombstone, anything else copies the value; the update is stamped
with `upd_txnid`. -/
def toUpd (e : LasEntry) : WTUpdate :=
  { txnid := e.updTxnid,
    value := if e.updSize = WT_UPDATE_DELETED_VALUE then none else some e.updValue }

/-- Bytes-allocated accounting for one `__wt_update_alloc` call (`incr`):
the value payload plus the update structure itself (modelled as one unit). -/
def allocIncr (e : LasEntry) : Nat :=
  (if e.updSize = WT_UPDATE_DELETED_VALUE then 0 else e.updValue.length) + 1

/-- The page slot a chain is attached to: a record number for column stores
(`__col_instantiate`), raw key bytes for row stores (`__row_instantiate`). -/
inductive SlotKey where
  | col (recno : Nat)
  | row (key : List Nat)
deriving Repr, DecidableEq

/-- Lexicographic order on byte strings. -/
def bytesLt : List Nat → List Nat → Bool
  | [], [] => false
  | [], _ :: _ => true
  | _ :: _, [] => false
  | x :: xs, y :: ys =>
    if x < y then true else if y < x then false else bytesLt xs ys

/-- A full lookaside search key, as built by `cursor->set_key(cursor,
btree_id, las_addr, txnid, counter, las_key)`. -/
structure LasSearchKey where
  sid : Nat
  saddr : List Nat
  skey : List Nat
  stxn : Nat
  scnt : Nat
deriving Repr, DecidableEq

/-- Modelled from the spec: the lookaside composite-key order of §3 — first
`(tree_id, page_addr)`, then user key, then `txn_id`, then `counter` (the
concrete collator is outside the excerpt).  `entryGeKey k e` decides `k ≤ e`. -/
def entryGeKey (k : LasSearchKey) (e : LasEntry) : Bool :=
  if k.sid ≠ e.lasId then decide (k.sid < e.lasId)
  else if k.saddr ≠ e.lasAddr then bytesLt k.saddr e.lasAddr
  else if k.skey ≠ e.lasKey then bytesLt k.skey e.lasKey
  else if k.stxn ≠ e.lasTxnid then decide (k.stxn < e.lasTxnid)
  else decide (k.scnt ≤ e.lasCounter)

/-- Modelled from the spec: `search_near` (§4.C, outside the excerpt) on the
ordered lookaside table positions at the first entry at or after the key
(`exact >= 0`); when every entry is before the key it positions at the last
entry with `exact < 0`, and the scan loops of `bt_read.c` then step the
cursor once forward, reaching the end of the table (`WT_NOTFOUND`).  Returns
the index at which the scan loop starts, `none` when the loop body never
runs. -/
def searchNearStart (table : List LasEntry) (k : LasSearchKey) : Option Nat :=
  table.findIdx? (entryGeKey k)

/-- The unique-block-prefix check shared by `__wt_las_remove_block` and
`__las_page_instantiate`: same tree id, same address size, address bytes
compare equal (`las_id != btree_id || las_addr->size != addr_size ||
memcmp(...) != 0` breaks the loop). -/
def matchesBlock (btreeId : Nat) (addr : List Nat) (e : LasEntry) : Bool :=
  decide (e.lasId = btreeId) && decide (e.lasAddr = addr)

/-- The removal loop of `__wt_las_remove_block`: step through matching
records removing each; the first mismatch ends the scan.  Returns the
remaining suffix and the removed records, in scan order. -/
def lasRemoveLoop (btreeId : Nat) (addr : List Nat) :
    List LasEntry → List LasEntry × List LasEntry
  | [] => ([], [])
  | e :: rest =>
    if matchesBlock btreeId addr e then
      let p := lasRemoveLoop btreeId addr rest
      (p.1, e :: p.2)
    else (e :: rest, [])

/-- `__wt_las_remove_block`: position with `search_near` on
`(btree_id, addr, 0, 0, empty)`, step once forward when positioned strictly
before, then remove every record of the block.  Returns the table after
removal and the list of removed records. -/
def wtLasRemoveBlock (table : List LasEntry) (btreeId : Nat) (addr : List Nat) :
    List LasEntry × List LasEntry :=
  match searchNearStart table ⟨btreeId, addr, [], 0, 0⟩ with
  | none => (table, [])
  | some i =>
    let p := lasRemoveLoop btreeId addr (table.drop i)
    (table.take i ++ p.1, p.2)

/-- Loop state of `__las_page_instantiate`: the current user key
(`current_key` scratch buffer and `current_recno`), the chain under
construction (`first_upd`, kept in link order, appended at the tail via
`last_upd`), the chains already inserted into the page, the byte counter
`total_incr`, plus two instrumentation lists: every entry examined past the
block-match check (`scanned`) and every update successfully allocated
(`alloc`). -/
structure InstState where
  currentKey : List Nat
  currentRecno : Nat
  firstUpd : List WTUpdate
  chains : List (SlotKey × List WTUpdate)
  totalIncr : Nat
  scanned : List LasEntry
  alloc : List WTUpdate
deriving Repr, DecidableEq

/-- The state at loop entry (`current_key` empty, `current_recno` out of
band, both update pointers null). -/
def initInstState : InstState :=
  { currentKey := [], currentRecno := WT_RECNO_OOB, firstUpd := [], chains := [],
    totalIncr := 0, scanned := [], alloc := [] }

/-- Successful result of `__las_page_instantiate`: the chains inserted into
the page, the total bytes allocated, and the instrumentation lists. -/
structure InstOk where
  chains : List (SlotKey × List WTUpdate)
  totalIncr : Nat
  scanned : List LasEntry
  alloc : List WTUpdate
deriving Repr, DecidableEq

/-- Error result of `__las_page_instantiate` after its `err:` label ran:
`chains` were already inserted into the page (they die with the page),
`freedUpd` is the single unlinked in-flight update freed by
`__wt_free(session, upd)` (empty or a singleton), `freedChain` is the
partially built chain freed by `__wt_free_update_list(session, first_upd)`. -/
structure InstFail where
  chains : List (SlotKey × List WTUpdate)
  freedUpd : List WTUpdate
  freedChain : List WTUpdate
  scanned : List LasEntry
  alloc : List WTUpdate
deriving Repr, DecidableEq

/-- The `err:` exit of `__las_page_instantiate` from state `st` with in-flight
update `fu` (`[]` when `upd == NULL`, a singleton otherwise). -/
def instFail (st : InstState) (fu : List WTUpdate) : InstFail :=
  { chains := st.chains, freedUpd := fu, freedChain := st.firstUpd,
    scanned := st.scanned, alloc := st.alloc }

/-- Append the freshly allocated update at the chain's tail
(`last_upd->next = upd; last_upd = upd`). -/
def appendUpd (st : InstState) (upd : WTUpdate) : InstState :=
  { st with firstUpd := st.firstUpd ++ [upd] }

/-- The code after the scan loop of `__las_page_instantiate`: insert the last
set of updates, if any (the trailing flush); an unknown page type is
`WT_ILLEGAL_VALUE_ERR`. -/
def instFinish (pt : PageType) (flushOk : SlotKey → Bool) (st : InstState) :
    Except InstFail InstOk :=
  if st.firstUpd = [] then
    .ok { chains := st.chains, totalIncr := st.totalIncr,
          scanned := st.scanned, alloc := st.alloc }
  else
    match pt with
    | PageType.colFix | PageType.colVar =>
      if flushOk (SlotKey.col st.currentRecno) then
        .ok { chains := st.chains ++ [(SlotKey.col st.currentRecno, st.firstUpd)],
              totalIncr := st.totalIncr, scanned := st.scanned, alloc := st.alloc }
      else .error (instFail st [])
    | PageType.rowLeaf =>
      if flushOk (SlotKey.row st.currentKey) then
        .ok { chains := st.chains ++ [(SlotKey.row st.currentKey, st.firstUpd)],
              totalIncr := st.totalIncr, scanned := st.scanned, alloc := st.alloc }
      else .error (instFail st [])
    | PageType.other => .error (instFail st [])

/-- One iteration of the scan loop of `__las_page_instantiate`, past the
block-match check, for an entry `e`:
globally visible records are skipped (`continue`); otherwise the update is
allocated (`allocU`, modelling `cursor->get_value` plus `__wt_update_alloc`,
which may fail), the user key is compared against the current key (decoding
the record number through `dec`, modelling `__wt_vunpack_uint`, for column
pages), a key change flushes the accumulated chain into the page
(`flushOk` says whether `__col_instantiate`/`__row_instantiate` succeeds),
and the update is appended at the chain's tail. -/
def instStep (pt : PageType) (va : Nat → Bool) (dec : List Nat → Except Unit Nat)
    (allocU : LasEntry → Except Unit WTUpdate) (flushOk : SlotKey → Bool)
    (e : LasEntry) (st : InstState) : Except InstFail InstState :=
  let st1 : InstState := { st with scanned := st.scanned ++ [e] }
  if va e.lasTxnid then .ok st1
  else
    match allocU e with
    | .error _ => .error (instFail st1 [])
    | .ok upd =>
      let st2 : InstState :=
        { st1 with alloc := st1.alloc ++ [upd], totalIncr := st1.totalIncr + allocIncr e }
      match pt with
      | PageType.colFix | PageType.colVar =>
        match dec e.lasKey with
        | .error _ => .error (instFail st2 [upd])
        | .ok recno =>
          if st2.currentRecno = recno then .ok (appendUpd st2 upd)
          else if st2.firstUpd = [] then
            .ok (appendUpd { st2 with currentRecno := recno } upd)
          else if flushOk (SlotKey.col st2.currentRecno) then
            .ok (appendUpd
                  { st2 with
                      chains := st2.chains ++ [(SlotKey.col st2.currentRecno, st2.firstUpd)],
                      firstUpd := [], currentRecno := recno } upd)
          else .error (instFail st2 [upd])
      | PageType.rowLeaf =>
        if st2.currentKey = e.lasKey then .ok (appendUpd st2 upd)
        else if st2.firstUpd = [] then
          .ok (appendUpd { st2 with currentKey := e.lasKey } upd)
        else if flushOk (SlotKey.row st2.currentKey) then
          .ok (appendUpd
                { st2 with
                    chains := st2.chains ++ [(SlotKey.row st2.currentKey, st2.firstUpd)],
                    firstUpd := [], currentKey := e.lasKey } upd)
        else .error (instFail st2 [upd])
      | PageType.other => .error (instFail st2 [upd])

/-- The scan loop of `__las_page_instantiate`: step through records until the
block-prefix check fails or the table ends, then insert the trailing chain. -/
def instLoop (pt : PageType) (va : Nat → Bool) (dec : List Nat → Except Unit Nat)
    (allocU : LasEntry → Except Unit WTUpdate) (flushOk : SlotKey → Bool)
    (readId : Nat) (addr : List Nat) :
    List LasEntry → InstState → Except InstFail InstOk
  | [], st => instFinish pt flushOk st
  | e :: rest, st =>
    if matchesBlock readId addr e then
      match instStep pt va dec allocU flushOk e st with
      | .error f => .error f
      | .ok st' => instLoop pt va dec allocU flushOk readId addr rest st'
    else instFinish pt flushOk st

/-- `__las_page_instantiate`, with its external collaborators as parameters:
`va` is `__wt_txn_visible_all`, `dec` is `__wt_vunpack_uint`, `allocU` is
`cursor->get_value` + `__wt_update_alloc`, `flushOk` decides whether
`__col_instantiate`/`__row_instantiate` succeeds. -/
def lasPageInstantiateG (pt : PageType) (va : Nat → Bool)
    (dec : List Nat → Except Unit Nat) (allocU : LasEntry → Except Unit WTUpdate)
    (flushOk : SlotKey → Bool) (table : List LasEntry) (readId : Nat)
    (addr : List Nat) : Except InstFail InstOk :=
  match searchNearStart table ⟨readId, addr, [], 0, 0⟩ with
  | none => instFinish pt flushOk initInstState
  | some i => instLoop pt va dec allocU flushOk readId addr (table.drop i) initInstState

/-- `cursor->get_value` + `__wt_update_alloc` when they succeed: the update
built from the lookaside value. -/
def okAlloc (e : LasEntry) : Except Unit WTUpdate := .ok (toUpd e)

/-- `__las_page_instantiate` on an execution where every external call
succeeds. -/
def lasPageInstantiate (pt : PageType) (va : Nat → Bool)
    (dec : List Nat → Except Unit Nat) (table : List LasEntry) (readId : Nat)
    (addr : List Nat) : Except InstFail InstOk :=
  lasPageInstantiateG pt va dec okAlloc (fun _ => true) table readId addr

/-- The entries a result of `__las_page_instantiate` examined past the
block-match check. -/
def scannedOf : Except InstFail InstOk → List LasEntry
  | .ok r => r.scanned
  | .error f => f.scanned

/-- All updates held by a list of page chains. -/
def chainsUpds : List (SlotKey × List WTUpdate) → List WTUpdate
  | [] => []
  | c :: rest => c.2 ++ chainsUpds rest

/-- Reference chunking of a record sequence into maximal runs of consecutive
equal user keys: `groupContE keyOf k g t` continues the open run `g` (all of
key `k`) through `t`. -/
def groupContE (keyOf : LasEntry → SlotKey) (k : SlotKey) (g : List LasEntry) :
    List LasEntry → List (SlotKey × List LasEntry)
  | [] => [(k, g)]
  | e :: t =>
    if keyOf e = k then groupContE keyOf k (g ++ [e]) t
    else (k, g) :: groupContE keyOf (keyOf e) [e] t

/-- Reference chunking of a record sequence into maximal runs of consecutive
equal user keys. -/
def groupRunsE (keyOf : LasEntry → SlotKey) : List LasEntry → List (SlotKey × List LasEntry)
  | [] => []
  | e :: t => groupContE keyOf (keyOf e) [e] t

/-- The user key of a lookaside record as `__las_page_instantiate` sees it:
the decoded record number for column pages, the raw key bytes for row pages. -/
def keyOfPt (pt : PageType) (dec : List Nat → Except Unit Nat) (e : LasEntry) : SlotKey :=
  match pt with
  | PageType.colFix | PageType.colVar =>
    SlotKey.col (match dec e.lasKey with | .ok n => n | .error _ => 0)
  | _ => SlotKey.row e.lasKey

/-- The records of a scan region that survive the global visibility filter,
in scan order. -/
def survivors (va : Nat → Bool) (es : List LasEntry) : List LasEntry :=
  es.filter (fun e => !va e.lasTxnid)

/-- The block-prefix scan region of `__las_page_instantiate` on `table`. -/
def blockScanned (table : List LasEntry) (readId : Nat) (addr : List Nat) :
    List LasEntry :=
  match searchNearStart table ⟨readId, addr, [], 0, 0⟩ with
  | none => []
  | some i => (table.drop i).takeWhile (matchesBlock readId addr)

/-- Ascending `(txn_id, counter)` order between two lookaside records. -/
def tcLt (a b : LasEntry) : Prop :=
  a.lasTxnid < b.lasTxnid ∨ (a.lasTxnid = b.lasTxnid ∧ a.lasCounter < b.lasCounter)

instance : DecidableRel tcLt := fun a b => by
  unfold tcLt
  infer_instance

/-- The slot the open chain of a loop state would be flushed into
(`current_recno` for column pages, `current_key` for row pages). -/
def stateSlot (pt : PageType) (st : InstState) : SlotKey :=
  match pt with
  | PageType.colFix | PageType.colVar => SlotKey.col st.currentRecno
  | _ => SlotKey.row st.currentKey

/-- Turn a run of lookaside records into the chain the page receives. -/
def mapChain (p : SlotKey × List LasEntry) : SlotKey × List WTUpdate :=
  (p.1, p.2.map toUpd)

/-- Concatenation of the runs of a chunking. -/
def concatGroups : List (SlotKey × List LasEntry) → List LasEntry
  | [] => []
  | g :: t => g.2 ++ concatGroups t

/-- The `scanned` instrumentation of one loop-step outcome. -/
def stepScanned : Except InstFail InstState → List LasEntry
  | .ok st => st.scanned
  | .error f => f.scanned

/-- The `alloc` instrumentation of one loop-step outcome. -/
def stepAllocL : Except InstFail InstState → List WTUpdate
  | .ok st => st.alloc
  | .error f => f.alloc

/-- The `alloc` instrumentation of an instantiation result. -/
def allocOf : Except InstFail InstOk → List WTUpdate
  | .ok r => r.alloc
  | .error f => f.alloc

/-- Ownership accounting over a loop-step outcome: every allocated update is
either in a page chain, in the open chain, or (on failure) in one of the two
freed lists. -/
def stepInv : Except InstFail InstState → Prop
  | .ok st => st.alloc = chainsUpds st.chains ++ st.firstUpd
  | .error f => f.alloc = chainsUpds f.chains ++ f.freedChain ++ f.freedUpd

/-- Ownership accounting over a finished instantiation: on success every
allocated update is in a page chain; on failure the freed chain and freed
in-flight update make up the difference. -/
def finInv : Except InstFail InstOk → Prop
  | .ok r => r.alloc = chainsUpds r.chains
  | .error f => f.alloc = chainsUpds f.chains ++ f.freedChain ++ f.freedUpd

/-- `ref->state` values of the reference state machine. -/
inductive RefState where
  | disk
  | reading
  | locked
  | mem
  | deleted
  | split
deriving Repr, DecidableEq

/-- The materialized page: its type, the lookaside-update flag of its disk
image, the attached update chains, the in-memory byte counter, and the dirty
bit. -/
structure WTPage where
  ptype : PageType
  lasFlag : Bool
  chains : List (SlotKey × List WTUpdate)
  inmemBytes : Nat
  dirty : Bool
deriving Repr, DecidableEq

/-- `WT_REF`: the atomic state word, the on-disk address (none when the page
was deleted and the address discarded), and the owning page pointer. -/
structure WTRef where
  state : RefState
  addr : Option (List Nat)
  page : Option WTPage
deriving Repr, DecidableEq

/-- The parsed disk image header, as far as `__wt_cache_read` consumes it:
the page type and the `WT_PAGE_LAS_UPDATE` flag. -/
structure DiskImg where
  ptype : PageType
  lasFlag : Bool
deriving Repr, DecidableEq

/-- External collaborators of `__wt_cache_read`, each fallible call modelled
by its outcome: `refInfoOk` is `__wt_ref_info`, `newLeafOk` is
`__wt_btree_new_leaf_page` (building a page of type `newLeafType`), `btRead`
is `__wt_bt_read`, `pageInmemOk` is `__wt_page_inmem`, `deleteInstOk` is
`__wt_delete_page_instantiate`, `lasActive` is `__wt_las_is_written`,
`verboseOk` is `__wt_verbose`; the remaining fields parameterize
`__las_page_instantiate` as in `lasPageInstantiateG`. -/
structure ReadEnv where
  refInfoOk : Bool
  newLeafOk : Bool
  newLeafType : PageType
  btRead : Except Unit DiskImg
  pageInmemOk : Bool
  deleteInstOk : Bool
  lasActive : Bool
  verboseOk : Bool
  table : List LasEntry
  btreeId : Nat
  va : Nat → Bool
  dec : List Nat → Except Unit Nat
  allocU : LasEntry → Except Unit WTUpdate
  flushOk : SlotKey → Bool

/-- The outcome of `__wt_cache_read`: success flag, the reference afterwards,
every update freed during the call (in free order), and every update
allocated during the call (instrumentation). -/
structure CacheReadOut where
  ok : Bool
  ref : WTRef
  freed : List WTUpdate
  alloc : List WTUpdate
deriving Repr, DecidableEq

/-- The `err:` exit of `__wt_cache_read`: discard the page if the ref holds
one (`__wt_ref_out`, which frees every update chain the page owns) and
publish the state back to `previous_state`. -/
def cacheReadErr (ref0 : WTRef) (prev : RefState) (page : Option WTPage)
    (freedBefore alloc : List WTUpdate) : CacheReadOut :=
  { ok := false,
    ref := { ref0 with state := prev, page := none },
    freed := freedBefore ++
      (match page with
       | some p => chainsUpds p.chains
       | none => []),
    alloc := alloc }

/-- `__wt_cache_read`.  Race for the fault with two CAS attempts
(`DISK → READING`, then `DELETED → LOCKED`); a loser returns success with no
work.  A ref without an address synthesizes an empty leaf page; otherwise the
disk image is read and materialized, deletion state is re-instantiated when
the previous state was `DELETED`, and lookaside updates are instantiated when
the image advertises them and the lookaside table is active.  On success the
state is published as `MEM`; any error discards the page and restores the
previous state. -/
def wtCacheRead (env : ReadEnv) (ref0 : WTRef) : CacheReadOut :=
  match
    (if ref0.state = RefState.disk then some RefState.disk
     else if ref0.state = RefState.deleted then some RefState.deleted
     else none)
  with
  | none => { ok := true, ref := ref0, freed := [], alloc := [] }
  | some prev =>
    if env.refInfoOk = false then cacheReadErr ref0 prev ref0.page [] []
    else
      match ref0.addr with
      | none =>
        if env.newLeafOk = false then cacheReadErr ref0 prev ref0.page [] []
        else
          let page : WTPage :=
            { ptype := env.newLeafType, lasFlag := false, chains := [],
              inmemBytes := 0, dirty := false }
          if env.verboseOk = false then cacheReadErr ref0 prev (some page) [] []
          else
            { ok := true, ref := { ref0 with state := RefState.mem, page := some page },
              freed := [], alloc := [] }
      | some a =>
        match env.btRead with
        | .error _ => cacheReadErr ref0 prev ref0.page [] []
        | .ok img =>
          if env.pageInmemOk = false then cacheReadErr ref0 prev none [] []
          else
            let page : WTPage :=
              { ptype := img.ptype, lasFlag := img.lasFlag, chains := [],
                inmemBytes := 0, dirty := false }
            if prev = RefState.deleted ∧ env.deleteInstOk = false then
              cacheReadErr ref0 prev (some page) [] []
            else if img.lasFlag && env.lasActive then
              match
                lasPageInstantiateG img.ptype env.va env.dec env.allocU env.flushOk
                  env.table env.btreeId a
              with
              | .error f =>
                cacheReadErr ref0 prev (some { page with chains := f.chains })
                  (f.freedUpd ++ f.freedChain) f.alloc
              | .ok r =>
                let page :=
                  { page with
                      chains := r.chains,
                      inmemBytes := page.inmemBytes + r.totalIncr,
                      dirty := if r.totalIncr ≠ 0 then false else page.dirty }
                if env.verboseOk = false then
                  cacheReadErr ref0 prev (some page) [] r.alloc
                else
                  { ok := true,
                    ref := { ref0 with state := RefState.mem, page := some page },
                    freed := [], alloc := r.alloc }
            else
              if env.verboseOk = false then cacheReadErr ref0 prev (some page) [] []
              else
                { ok := true,
                  ref := { ref0 with state := RefState.mem, page := some page },
                  freed := [], alloc := [] }

/-- Witness lookaside table (scenario 5 of the spec): key `[1]` with updates
of txns `10`, `12`, `14` (txn `10` globally visible), key `[3]` with one
update of txn `13`, all under block `(5, [2])`. -/
def exTable : List LasEntry :=
  [{ lasId := 5, lasAddr := [2], lasKey := [1], lasTxnid := 10, lasCounter := 0,
     updTxnid := 10, updSize := 0, updValue := [] },
   { lasId := 5, lasAddr := [2], lasKey := [1], lasTxnid := 12, lasCounter := 1,
     updTxnid := 12, updSize := 0, updValue := [] },
   { lasId := 5, lasAddr := [2], lasKey := [1], lasTxnid := 14, lasCounter := 2,
     updTxnid := 14, updSize := 0, updValue := [] },
   { lasId := 5, lasAddr := [2], lasKey := [3], lasTxnid := 13, lasCounter := 0,
     updTxnid := 13, updSize := 0, updValue := [] }]

/-- Witness visibility oracle: transactions up to `10` are globally visible. -/
def exVa (txnid : Nat) : Bool := decide (txnid ≤ 10)

/-- Witness record-number decoder (unused on row pages). -/
def exDec (_ : List Nat) : Except Unit Nat := .ok 0

/-- The result of instantiating `exTable` on a row-leaf page: txn `10` is
filtered, txns `12` and `14` chain under key `[1]`, txn `13` under key `[3]`. -/
def exInstOk : InstOk :=
  { chains := [(SlotKey.row [1],
        [{ txnid := 12, value := some [] }, { txnid := 14, value := some [] }]),
      (SlotKey.row [3], [{ txnid := 13, value := some [] }])],
    totalIncr := 3,
    scanned := exTable,
    alloc := [{ txnid := 12, value := some [] }, { txnid := 14, value := some [] },
      { txnid := 13, value := some [] }] }

/-- Witness read environment for the error-rollback theorem: the block read
itself fails. -/
def exEnv : ReadEnv :=
  { refInfoOk := true, newLeafOk := true, newLeafType := PageType.rowLeaf,
    btRead := .error (), pageInmemOk := true, deleteInstOk := true,
    lasActive := true, verboseOk := true, table := exTable, btreeId := 5,
    va := exVa, dec := exDec, allocU := okAlloc, flushOk := fun _ => true }

/-- Witness reference: on disk, with a backing address and no page. -/
def exRef : WTRef :=
  { state := RefState.disk, addr := some [2], page := none }

end WT

namespace MongoRecovery

/-- The reverse scan fails (fatal `40296`) when no entry is at or before the
truncate timestamp. -/
theorem truncateScan_eq_none (T : Ts) :
    ∀ (l : List Ts) (c : Nat), (∀ x ∈ l, T < x) → truncateScan T l c = none := by
  intro l
  induction l with
  | nil => intro c _; rfl
  | cons a t ih =>
    intro c h
    have ha : ¬ a ≤ T := Nat.not_le.mpr (h a (List.mem_cons_self a t))
    simpa [truncateScan, ha] using ih (c + 1) (fun x hx => h x (List.mem_cons_of_mem a hx))

/-- The reverse scan stops at the first entry at or before the truncate
timestamp, reporting the 1-based count of entries examined. -/
theorem truncateScan_eq_some (T : Ts) :
    ∀ (l : List Ts) (c : Nat), (∃ x ∈ l, x ≤ T) →
      truncateScan T l c =
        some (c + (l.takeWhile (fun x => decide (T < x))).length + 1) := by
  intro l
  induction l with
  | nil => intro c h; exact absurd h (by simp)
  | cons a t ih =>
    intro c h
    by_cases ha : a ≤ T
    · have hpa : (decide (T < a)) = false := by simp [Nat.not_lt.mpr ha]
      simp [truncateScan, ha, List.takeWhile_cons, hpa]
    · have hta : T < a := Nat.not_le.mp ha
      have hpa : (decide (T < a)) = true := by simp [hta]
      have h' : ∃ x ∈ t, x ≤ T := by
        rcases h with ⟨x, hx, hxT⟩
        rcases List.mem_cons.mp hx with rfl | hx'
        · exact absurd hxT ha
        · exact ⟨x, hx', hxT⟩
      have h2 := ih (c + 1) h'
      have h1 : truncateScan T (a :: t) c = truncateScan T t (c + 1) := by
        simp [truncateScan, ha]
      rw [h1, h2, List.takeWhile_cons, if_pos hpa, List.length_cons]
      congr 1
      omega

/-- In a strictly descending list, everything from the first entry at or
before `T` on is at or before `T`. -/
theorem dropWhile_gt_all_le (T : Ts) :
    ∀ (r : List Ts), r.Pairwise (fun a b => b < a) →
      ∀ x ∈ r.dropWhile (fun y => decide (T < y)), x ≤ T := by
  intro r
  induction r with
  | nil => intro _ x hx; simp at hx
  | cons a t ih =>
    intro hp x hx
    rcases List.pairwise_cons.mp hp with ⟨hat, hpt⟩
    by_cases ha : T < a
    · rw [List.dropWhile_cons, if_pos (by simpa using ha)] at hx
      exact ih hpt x hx
    · rw [List.dropWhile_cons, if_neg (by simpa using ha)] at hx
      rcases List.mem_cons.mp hx with rfl | hx'
      · exact Nat.not_lt.mp ha
      · exact Nat.le_of_lt (Nat.lt_of_lt_of_le (hat x hx') (Nat.not_lt.mp ha))

/-- On a strictly ascending oplog containing at least one entry at or before
the truncate timestamp, `_truncateOplogTo` keeps exactly the entries at or
before that timestamp. -/
theorem truncateOplogTo_eq_filter (log : List Ts) (T : Ts)
    (hsort : log.Pairwise (· < ·)) (hex : ∃ x ∈ log, x ≤ T) :
    truncateOplogTo log T = some (log.filter (fun x => decide (x ≤ T))) := by
  have hexr : ∃ x ∈ log.reverse, x ≤ T := by simpa using hex
  have hscan := truncateScan_eq_some T log.reverse 0 hexr
  set p : Ts → Bool := fun x => decide (T < x) with hp
  set tW := log.reverse.takeWhile p with htW
  set dW := log.reverse.dropWhile p with hdW
  have htd : tW ++ dW = log.reverse := by
    rw [htW, hdW]
    exact List.takeWhile_append_dropWhile p log.reverse
  have hsortr : log.reverse.Pairwise (fun a b => b < a) :=
    List.pairwise_reverse.mpr hsort
  have hdWle : ∀ x ∈ dW, x ≤ T := fun x hx => dropWhile_gt_all_le T log.reverse hsortr x hx
  have htWgt : ∀ x ∈ tW, T < x := by
    intro x hx
    have := List.mem_takeWhile_imp hx
    simpa [hp] using this
  have hlogeq : log = dW.reverse ++ tW.reverse := by
    have : (tW ++ dW).reverse = log := by rw [htd, List.reverse_reverse]
    rw [← this, List.reverse_append]
  have hfilter : log.filter (fun x => decide (x ≤ T)) = dW.reverse := by
    rw [hlogeq, List.filter_append]
    have h1 : dW.reverse.filter (fun x => decide (x ≤ T)) = dW.reverse :=
      List.filter_eq_self.mpr (by
        intro a ha
        exact decide_eq_true (hdWle a (List.mem_reverse.mp ha)))
    have h2 : tW.reverse.filter (fun x => decide (x ≤ T)) = [] :=
      List.filter_eq_nil_iff.mpr (by
        intro a ha
        simpa using Nat.not_le.mpr (htWgt a (List.mem_reverse.mp ha)))
    rw [h1, h2, List.append_nil]
  have hlen : log.length = tW.length + dW.length := by
    rw [hlogeq]
    simp [Nat.add_comm]
  rw [truncateOplogTo, hscan]
  simp only [Nat.zero_add]
  by_cases hk : tW.length = 0
  · have htWnil : tW = [] := List.length_eq_zero.mp hk
    have : log = dW.reverse := by simpa [htWnil] using hlogeq
    rw [if_pos (by omega), hfilter, ← this]
  · rw [if_neg (by omega)]
    have harith : log.length + 1 - (tW.length + 1) = dW.reverse.length := by
      simp only [List.length_reverse]
      omega
    have htake : log.take dW.reverse.length = dW.reverse := by
      conv_lhs => rw [hlogeq]
      exact List.take_left dW.reverse tW.reverse
    rw [harith, htake, hfilter]

/-- C3: on a log with at least one entry at or before `T`, the newest-first
scan of the truncator leaves the log untouched when the very first (newest)
entry examined is already at or before `T`, and otherwise removes exactly the
entries strictly greater than `T`, so that every remaining entry is at most
the largest `ts ≤ T` present before truncation. -/
theorem truncateOplogTo_correct (log : List Ts) (T : Ts)
    (hsort : log.Pairwise (· < ·)) (hex : ∃ x ∈ log, x ≤ T) :
    truncateOplogTo log T = some (log.filter (fun x => decide (x ≤ T))) ∧
      (∀ e, log.getLast? = some e → e ≤ T → truncateOplogTo log T = some log) ∧
      (∀ x ∈ log.filter (fun x => decide (x ≤ T)), ∃ y ∈ log, y ≤ T ∧ x ≤ y) := by
  have hmain := truncateOplogTo_eq_filter log T hsort hex
  refine ⟨hmain, ?_, ?_⟩
  · intro e hlast heT
    have hall : ∀ x ∈ log, x ≤ T := by
      intro x hx
      have hlast' : log.reverse.head? = some e := by
        rw [← List.getLast?_eq_head?_reverse]; exact hlast
      have hxr : x ∈ log.reverse := List.mem_reverse.mpr hx
      rcases hr : log.reverse with _ | ⟨a, t⟩
      · rw [hr] at hxr; simp at hxr
      · rw [hr] at hlast' hxr
        have ha : a = e := by simpa using hlast'
        have hsr := List.pairwise_reverse.mpr hsort
        rw [hr] at hsr
        rcases List.pairwise_cons.mp hsr with ⟨hat, _⟩
        rcases List.mem_cons.mp hxr with rfl | hx'
        · exact ha ▸ heT
        · exact Nat.le_of_lt (Nat.lt_of_lt_of_le (hat x hx') (ha ▸ heT))
    have : log.filter (fun x => decide (x ≤ T)) = log :=
      List.filter_eq_self.mpr (fun a ha => decide_eq_true (hall a ha))
    rw [hmain, this]
  · intro x hx
    have hxlog : x ∈ log := List.mem_of_mem_filter hx
    have hxT : x ≤ T := by simpa using List.of_mem_filter hx
    exact ⟨x, hxlog, hxT, Nat.le_refl x⟩

/-- C3 witness: the truncator at `T = 4` on the log `[1, 3, 5]` keeps `[1, 3]`. -/
theorem truncateOplogTo_correct_witness :
    truncateOplogTo [1, 3, 5] 4 =
        some (List.filter (fun x => decide (x ≤ 4)) [1, 3, 5]) ∧
      (∀ e, List.getLast? [1, 3, 5] = some e → e ≤ 4 →
        truncateOplogTo [1, 3, 5] 4 = some [1, 3, 5]) ∧
      (∀ x ∈ List.filter (fun x => decide (x ≤ 4)) [1, 3, 5],
        ∃ y ∈ [1, 3, 5], y ≤ 4 ∧ x ≤ y) :=
  truncateOplogTo_correct [1, 3, 5] 4 (by decide) ⟨1, by decide, by decide⟩

/-- C4 counterexample: on a log whose every entry is strictly after `T`,
`_truncateOplogTo` does not complete with the log unchanged — it reaches the
end of the oplog and hits the fatal `fassertFailedNoTrace(40296)` exit
(modelled as `none`). -/
theorem truncateOplogTo_noEntry_counterexample :
    (∀ x ∈ ([5] : List Ts), ¬ x ≤ 3) ∧
      truncateOplogTo [5] 3 ≠ some [5] ∧
      truncateOplogTo [5] 3 = none := by decide

/-- C4 amended: when the log has no entry at or before `T`, the truncator
removes nothing but aborts fatally (it does not complete normally). -/
theorem truncateOplogTo_noEntry_fatal (log : List Ts) (T : Ts)
    (h : ∀ x ∈ log, T < x) : truncateOplogTo log T = none := by
  have : truncateScan T log.reverse 0 = none :=
    truncateScan_eq_none T log.reverse 0 (fun x hx => h x (List.mem_reverse.mp hx))
  rw [truncateOplogTo, this]

/-- C4 amended witness. -/
theorem truncateOplogTo_noEntry_fatal_witness : truncateOplogTo [5] 3 = none :=
  truncateOplogTo_noEntry_fatal [5] 3 (by decide)

/-- C1 counterexample: with `truncateAfterPoint = 80` and a stable timestamp
of `60` (stable exists and is earlier), the code truncates at `80`, not at
`min 80 60 = 60` — the entry `70 > 60` survives, contradicting the claimed
truncation to the smaller of the two. -/
theorem truncateAfterPoint_min_counterexample :
    exC1.truncateAfterPoint = 80 ∧
      ((truncateOplogIfNeededAndThenClearOplogTruncateAfterPoint exC1
          (some 60)).toOption.map RecState.oplog) = some [50, 60, 70, 80] ∧
      ¬ (∀ x ∈ [50, 60, 70, 80], x ≤ min 80 60) := by decide

/-- C1 amended: when `truncateAfterPoint = p` is set and the stable timestamp
`s` exists, is non-null and is strictly earlier than `p`, the oplog is
truncated at `p` itself (the larger of the two; the stable timestamp is
substituted only when `p ≤ s`); afterwards `truncateAfterPoint` is cleared
and the clear is flushed durably. -/
theorem truncateAfterPoint_uses_larger (st : RecState) (s : Ts)
    (hp : st.truncateAfterPoint ≠ 0) (hs : s ≠ 0) (hlt : s < st.truncateAfterPoint)
    (hsort : st.oplog.Pairwise (· < ·))
    (hex : ∃ x ∈ st.oplog, x ≤ st.truncateAfterPoint) :
    truncateOplogIfNeededAndThenClearOplogTruncateAfterPoint st (some s) =
      .ok { st with
              oplog := st.oplog.filter (fun x => decide (x ≤ st.truncateAfterPoint)),
              truncateAfterPoint := 0,
              trace := st.trace ++
                [REvent.truncatedTo st.truncateAfterPoint, REvent.clearedTruncatePoint,
                 REvent.durableBarrier] } := by
  have hnotle : ¬ (s ≠ 0 ∧ st.truncateAfterPoint ≤ s) := by
    intro h
    exact absurd h.2 (Nat.not_le.mpr hlt)
  rw [truncateOplogIfNeededAndThenClearOplogTruncateAfterPoint]
  simp only [hp, if_false, hnotle, ite_false,
    truncateOplogTo_eq_filter st.oplog st.truncateAfterPoint hsort hex]

/-- C1 amended witness: on `exC1` the oplog is truncated at `80`, the
truncate-after point is cleared, and the durable flush follows. -/
theorem truncateAfterPoint_uses_larger_witness :
    truncateOplogIfNeededAndThenClearOplogTruncateAfterPoint exC1 (some 60) =
      .ok { exC1 with
              oplog := exC1.oplog.filter
                (fun x => decide (x ≤ exC1.truncateAfterPoint)),
              truncateAfterPoint := 0,
              trace := exC1.trace ++
                [REvent.truncatedTo exC1.truncateAfterPoint,
                 REvent.clearedTruncatePoint, REvent.durableBarrier] } :=
  truncateAfterPoint_uses_larger exC1 60 (by decide) (by decide) (by decide)
    (by decide) ⟨50, by decide, by decide⟩

/-- C2 counterexample: with `appliedThrough` null and top-of-oplog `70`,
`_recoverFromUnstableCheckpoint` does not return with the state unchanged:
it still sets `initialDataTimestamp = 70`, sets `appliedThrough = 70`, and
forces the unjournaled-writes durability barrier. -/
theorem unstable_nullApplied_counterexample :
    recoverFromUnstableCheckpoint exC2 0 70 ≠ .ok exC2 ∧
      (recoverFromUnstableCheckpoint exC2 0 70).toOption.map
        RecState.initialDataTimestamp = some 70 ∧
      (recoverFromUnstableCheckpoint exC2 0 70).toOption.map
        RecState.appliedThrough = some 70 ∧
      (recoverFromUnstableCheckpoint exC2 0 70).toOption.map RecState.trace =
        some [REvent.setInitialData 70, REvent.setApplied 70,
          REvent.unjournaledBarrier] := by decide

/-- C2 amended: on the unstable-checkpoint path with null `appliedThrough`,
no log entry is replayed and the oldest timestamp is not moved, but the
function does not return early: it still sets
`initialDataTimestamp = top_of_log`, sets `appliedThrough = top_of_log`, and
forces the unjournaled-writes durability barrier. -/
theorem unstable_nullApplied_still_sets_markers (st : RecState) (top : Ts)
    (htop : top ≠ 0) :
    recoverFromUnstableCheckpoint st 0 top =
      .ok { st with
              initialDataTimestamp := top,
              appliedThrough := top,
              trace := st.trace ++
                [REvent.setInitialData top, REvent.setApplied top,
                 REvent.unjournaledBarrier] } := by
  rw [recoverFromUnstableCheckpoint]
  simp [htop, setInitialDataTimestampM, setAppliedThroughM, unjournaledBarrierM]

/-- C2 amended witness. -/
theorem unstable_nullApplied_still_sets_markers_witness :
    recoverFromUnstableCheckpoint exC2 0 70 =
      .ok { exC2 with
              initialDataTimestamp := 70,
              appliedThrough := 70,
              trace := exC2.trace ++
                [REvent.setInitialData 70, REvent.setApplied 70,
                 REvent.unjournaledBarrier] } :=
  unstable_nullApplied_still_sets_markers exC2 70 (by decide)

/-- C5: for a replay over `[startPoint, endPoint]` whose log reader yields at
least one entry, a first entry different from the start point is the fatal
`fassertFailedNoTrace(40292)` exit, with the state untouched (in particular
no `appliedThrough` update); when the first entry matches, it is consumed
without being applied (only the remaining entries produce `applied` events),
and `appliedThrough` is advanced only when something was applied. -/
theorem applyOplog_first_entry (st : RecState) (startPoint : Ts)
    (endPoint : Option Ts) (f : Ts) (rest : List Ts)
    (hb : oplogRange st.oplog startPoint endPoint = f :: rest) :
    (f ≠ startPoint →
      applyOplogOperations st startPoint endPoint = .error (.fatal 40292, st)) ∧
      (f = startPoint → rest = [] →
        applyOplogOperations st startPoint endPoint = .ok (st, 0)) ∧
      (f = startPoint → ∀ last, rest.getLast? = some last →
        applyOplogOperations st startPoint endPoint =
          .ok ({ st with
                   appliedThrough := last,
                   trace := st.trace ++ rest.map REvent.applied ++
                     [REvent.setApplied last] }, last)) := by
  refine ⟨?_, ?_, ?_⟩
  · intro hne
    rw [applyOplogOperations, hb]
    simp [hne]
  · intro heq hrest
    subst heq hrest
    rw [applyOplogOperations, hb]
    simp
  · intro heq last hlast
    subst heq
    rw [applyOplogOperations, hb]
    simp [hlast, setAppliedThroughM, List.append_assoc]

/-- C5 witness: replaying `[10, 30]` over the oplog `[10, 20, 30]` consumes
the matching first entry `10` and applies exactly `20` and `30`. -/
theorem applyOplog_first_entry_witness :
    applyOplogOperations exC5 10 (some 30) =
      .ok ({ exC5 with
               appliedThrough := 30,
               trace := exC5.trace ++ List.map REvent.applied [20, 30] ++
                 [REvent.setApplied 30] }, 30) := by
  have h := applyOplog_first_entry exC5 10 (some 30) 10 [20, 30] (by decide)
  exact h.2.2 rfl 30 (by decide)

/-- C10: when the initial-sync flag is set, `recoverFromOplogUpTo` fails with
`InitialSyncActive` immediately, before any truncation or replay; the state
at the failure is exactly the entry state (markers and log unchanged). -/
theorem recoverUpTo_initialSync (st : RecState) (endPoint : Ts)
    (h : st.initialSyncFlag = true) :
    recoverFromOplogUpTo st endPoint = .error (.initialSyncActive, st) := by
  rw [recoverFromOplogUpTo]
  simp [h]

/-- C10 witness. -/
theorem recoverUpTo_initialSync_witness :
    recoverFromOplogUpTo { exC2 with initialSyncFlag := true } 100 =
      .error (.initialSyncActive, { exC2 with initialSyncFlag := true }) :=
  recoverUpTo_initialSync { exC2 with initialSyncFlag := true } 100 rfl

end MongoRecovery

namespace WT

/-- Every record removed by the removal loop of `__wt_las_remove_block`
passed the unique-block-prefix check. -/
theorem lasRemoveLoop_matches (btreeId : Nat) (addr : List Nat) :
    ∀ l : List LasEntry, ∀ e ∈ (lasRemoveLoop btreeId addr l).2,
      matchesBlock btreeId addr e = true := by
  intro l
  induction l with
  | nil => intro e he; simp [lasRemoveLoop] at he
  | cons a t ih =>
    intro e he
    by_cases ha : matchesBlock btreeId addr a
    · simp only [lasRemoveLoop, ha, if_true] at he
      rcases List.mem_cons.mp he with rfl | he'
      · exact ha
      · exact ih e he'
    · simp [lasRemoveLoop, ha] at he

/-- One loop step records exactly the entry it examined. -/
theorem instStep_scanned (pt : PageType) (va : Nat → Bool)
    (dec : List Nat → Except Unit Nat) (allocU : LasEntry → Except Unit WTUpdate)
    (flushOk : SlotKey → Bool) (e : LasEntry) (st : InstState) :
    stepScanned (instStep pt va dec allocU flushOk e st) = st.scanned ++ [e] := by
  unfold instStep
  by_cases hva : va e.lasTxnid
  · simp [hva, stepScanned]
  · cases hA : allocU e with
    | error u => simp [hva, hA, stepScanned, instFail]
    | ok upd =>
      cases pt
      · cases hd : dec e.lasKey with
        | error u => simp [hva, hA, hd, stepScanned, instFail]
        | ok recno =>
          simp only [hva, hA, hd, Bool.false_eq_true, if_false]
          repeat' split
          all_goals simp [stepScanned, instFail, appendUpd]
      · cases hd : dec e.lasKey with
        | error u => simp [hva, hA, hd, stepScanned, instFail]
        | ok recno =>
          simp only [hva, hA, hd, Bool.false_eq_true, if_false]
          repeat' split
          all_goals simp [stepScanned, instFail, appendUpd]
      · simp only [hva, hA, Bool.false_eq_true, if_false]
        repeat' split
        all_goals simp [stepScanned, instFail, appendUpd]
      · simp [hva, hA, stepScanned, instFail]

/-- The trailing flush does not examine entries. -/
theorem scannedOf_instFinish (pt : PageType) (flushOk : SlotKey → Bool)
    (st : InstState) : scannedOf (instFinish pt flushOk st) = st.scanned := by
  unfold instFinish
  by_cases h : st.firstUpd = []
  · simp [h, scannedOf]
  · cases pt
    · by_cases hf : flushOk (SlotKey.col st.currentRecno) <;>
        simp [h, hf, scannedOf, instFail]
    · by_cases hf : flushOk (SlotKey.col st.currentRecno) <;>
        simp [h, hf, scannedOf, instFail]
    · by_cases hf : flushOk (SlotKey.row st.currentKey) <;>
        simp [h, hf, scannedOf, instFail]
    · simp [h, scannedOf, instFail]

/-- Entries examined by the scan loop either were already recorded or pass
the unique-block-prefix check. -/
theorem instLoop_scanned_mem (pt : PageType) (va : Nat → Bool)
    (dec : List Nat → Except Unit Nat) (allocU : LasEntry → Except Unit WTUpdate)
    (flushOk : SlotKey → Bool) (readId : Nat) (addr : List Nat) :
    ∀ (es : List LasEntry) (st : InstState) (e : LasEntry),
      e ∈ scannedOf (instLoop pt va dec allocU flushOk readId addr es st) →
      e ∈ st.scanned ∨ matchesBlock readId addr e = true := by
  intro es
  induction es with
  | nil =>
    intro st e he
    rw [instLoop, scannedOf_instFinish] at he
    exact Or.inl he
  | cons a t ih =>
    intro st e he
    rw [instLoop] at he
    by_cases ha : matchesBlock readId addr a
    · rw [if_pos ha] at he
      have hsc := instStep_scanned pt va dec allocU flushOk a st
      rcases hstep : instStep pt va dec allocU flushOk a st with f0 | st0
      · rw [hstep] at he hsc
        simp only [stepScanned] at hsc
        simp only [scannedOf] at he
        rw [hsc] at he
        rcases List.mem_append.mp he with h | h
        · exact Or.inl h
        · have : e = a := by simpa using h
          exact Or.inr (this ▸ ha)
      · rw [hstep] at he hsc
        simp only [stepScanned] at hsc
        rcases ih st0 e he with h | h
        · rw [hsc] at h
          rcases List.mem_append.mp h with h' | h'
          · exact Or.inl h'
          · have : e = a := by simpa using h'
            exact Or.inr (this ▸ ha)
        · exact Or.inr h
    · rw [if_neg ha, scannedOf_instFinish] at he
      exact Or.inl he

/-- C8: the block scan of `__wt_las_remove_block` removes only records whose
tree id equals the target and whose address bytes compare equal (same size,
same bytes), and the block scan of `__las_page_instantiate` examines only
such records past the prefix check — neither touches an entry of a different
block prefix. -/
theorem blockScan_bounded (pt : PageType) (va : Nat → Bool)
    (dec : List Nat → Except Unit Nat) (allocU : LasEntry → Except Unit WTUpdate)
    (flushOk : SlotKey → Bool) (table : List LasEntry) (btreeId : Nat)
    (addr : List Nat) :
    (∀ e ∈ (wtLasRemoveBlock table btreeId addr).2,
        e.lasId = btreeId ∧ e.lasAddr = addr) ∧
      (∀ e ∈ scannedOf (lasPageInstantiateG pt va dec allocU flushOk table btreeId addr),
        e.lasId = btreeId ∧ e.lasAddr = addr) := by
  constructor
  · intro e he
    rw [wtLasRemoveBlock] at he
    rcases hsn : searchNearStart table ⟨btreeId, addr, [], 0, 0⟩ with _ | i
    · rw [hsn] at he
      simp at he
    · rw [hsn] at he
      have := lasRemoveLoop_matches btreeId addr (table.drop i) e he
      simpa [matchesBlock] using this
  · intro e he
    rw [lasPageInstantiateG] at he
    rcases hsn : searchNearStart table ⟨btreeId, addr, [], 0, 0⟩ with _ | i
    · rw [hsn, scannedOf_instFinish] at he
      simp [initInstState] at he
    · rw [hsn] at he
      rcases instLoop_scanned_mem pt va dec allocU flushOk btreeId addr
          (table.drop i) initInstState e he with h | h
      · simp [initInstState] at h
      · simpa [matchesBlock] using h

/-- C8 witness: the scan of `exTable` for block `(5, [2])` removes the txn-10
record, which indeed carries tree id `5` and address `[2]`. -/
theorem blockScan_bounded_witness :
    ({ lasId := 5, lasAddr := [2], lasKey := [1], lasTxnid := 10, lasCounter := 0,
       updTxnid := 10, updSize := 0, updValue := [] } : LasEntry).lasId = 5 ∧
      ({ lasId := 5, lasAddr := [2], lasKey := [1], lasTxnid := 10, lasCounter := 0,
         updTxnid := 10, updSize := 0, updValue := [] } : LasEntry).lasAddr = [2] :=
  (blockScan_bounded PageType.rowLeaf exVa exDec okAlloc (fun _ => true)
    exTable 5 [2]).1 _ (by decide)

/-- `chainsUpds` distributes over append. -/
theorem chainsUpds_append :
    ∀ l1 l2 : List (SlotKey × List WTUpdate),
      chainsUpds (l1 ++ l2) = chainsUpds l1 ++ chainsUpds l2 := by
  intro l1 l2
  induction l1 with
  | nil => simp [chainsUpds]
  | cons c t ih => simp [chainsUpds, ih]

/-- The trailing flush preserves the ownership accounting. -/
theorem instFinish_alloc (pt : PageType) (flushOk : SlotKey → Bool) (st : InstState)
    (h : st.alloc = chainsUpds st.chains ++ st.firstUpd) :
    finInv (instFinish pt flushOk st) := by
  unfold instFinish
  by_cases hfu : st.firstUpd = []
  · simp [hfu, finInv, h, hfu.symm ▸ h]
  · cases pt
    · by_cases hf : flushOk (SlotKey.col st.currentRecno) <;>
        simp [hfu, hf, finInv, instFail, chainsUpds_append, chainsUpds, h]
    · by_cases hf : flushOk (SlotKey.col st.currentRecno) <;>
        simp [hfu, hf, finInv, instFail, chainsUpds_append, chainsUpds, h]
    · by_cases hf : flushOk (SlotKey.row st.currentKey) <;>
        simp [hfu, hf, finInv, instFail, chainsUpds_append, chainsUpds, h]
    · simp [hfu, finInv, instFail, h]

/-- One loop step preserves the ownership accounting. -/
theorem instStep_alloc (pt : PageType) (va : Nat → Bool)
    (dec : List Nat → Except Unit Nat) (allocU : LasEntry → Except Unit WTUpdate)
    (flushOk : SlotKey → Bool) (e : LasEntry) (st : InstState)
    (h : st.alloc = chainsUpds st.chains ++ st.firstUpd) :
    stepInv (instStep pt va dec allocU flushOk e st) := by
  unfold instStep
  by_cases hva : va e.lasTxnid
  · simp [hva, stepInv, h]
  · cases hA : allocU e with
    | error u => simp [hva, hA, stepInv, instFail, h]
    | ok upd =>
      cases pt
      · cases hd : dec e.lasKey with
        | error u =>
          simp [hva, hA, hd, stepInv, instFail, h, List.append_assoc]
        | ok recno =>
          simp only [hva, hA, hd, Bool.false_eq_true, if_false]
          repeat' split
          all_goals
            simp [stepInv, instFail, appendUpd, chainsUpds_append, chainsUpds, h,
              List.append_assoc]
      · cases hd : dec e.lasKey with
        | error u =>
          simp [hva, hA, hd, stepInv, instFail, h, List.append_assoc]
        | ok recno =>
          simp only [hva, hA, hd, Bool.false_eq_true, if_false]
          repeat' split
          all_goals
            simp [stepInv, instFail, appendUpd, chainsUpds_append, chainsUpds, h,
              List.append_assoc]
      · simp only [hva, hA, Bool.false_eq_true, if_false]
        repeat' split
        all_goals
          simp [stepInv, instFail, appendUpd, chainsUpds_append, chainsUpds, h,
            List.append_assoc]
      · simp [hva, hA, stepInv, instFail, h, List.append_assoc]

/-- The scan loop preserves the ownership accounting. -/
theorem instLoop_alloc (pt : PageType) (va : Nat → Bool)
    (dec : List Nat → Except Unit Nat) (allocU : LasEntry → Except Unit WTUpdate)
    (flushOk : SlotKey → Bool) (readId : Nat) (addr : List Nat) :
    ∀ (es : List LasEntry) (st : InstState),
      st.alloc = chainsUpds st.chains ++ st.firstUpd →
      finInv (instLoop pt va dec allocU flushOk readId addr es st) := by
  intro es
  induction es with
  | nil =>
    intro st h
    rw [instLoop]
    exact instFinish_alloc pt flushOk st h
  | cons a t ih =>
    intro st h
    rw [instLoop]
    by_cases ha : matchesBlock readId addr a
    · rw [if_pos ha]
      have hs := instStep_alloc pt va dec allocU flushOk a st h
      rcases hstep : instStep pt va dec allocU flushOk a st with f0 | st0 <;>
        rw [hstep] at hs
      · simp only [stepInv] at hs
        simpa [finInv, List.append_assoc] using hs
      · simp only [stepInv] at hs
        exact ih st0 hs
    · rw [if_neg ha]
      exact instFinish_alloc pt flushOk st h

/-- `__las_page_instantiate` satisfies the ownership accounting from its
empty initial state. -/
theorem lasPageInstantiateG_alloc (pt : PageType) (va : Nat → Bool)
    (dec : List Nat → Except Unit Nat) (allocU : LasEntry → Except Unit WTUpdate)
    (flushOk : SlotKey → Bool) (table : List LasEntry) (readId : Nat)
    (addr : List Nat) :
    finInv (lasPageInstantiateG pt va dec allocU flushOk table readId addr) := by
  rw [lasPageInstantiateG]
  rcases searchNearStart table ⟨readId, addr, [], 0, 0⟩ with _ | i
  · exact instFinish_alloc pt flushOk initInstState (by simp [initInstState, chainsUpds])
  · exact instLoop_alloc pt va dec allocU flushOk readId addr (table.drop i)
      initInstState (by simp [initInstState, chainsUpds])

/-- Rotating a three-part concatenation is a permutation. -/
theorem perm_rot {α : Type} (U C P : List α) :
    ((U ++ C) ++ P).Perm (P ++ C ++ U) := by
  have h1 : ((U ++ C) ++ P).Perm (P ++ (U ++ C)) := List.perm_append_comm
  have h3 : (P ++ (U ++ C)).Perm (P ++ (C ++ U)) :=
    List.Perm.append_left P List.perm_append_comm
  have h4 : P ++ (C ++ U) = P ++ C ++ U := (List.append_assoc P C U).symm
  exact (h1.trans h3).trans (h4 ▸ List.Perm.refl (P ++ (C ++ U)))

/-- C6: whenever `__wt_cache_read` fails after winning the state race (the
race is only won from `DISK` or `DELETED`), the reference's state is restored
to its value at entry, the reference holds no page, and the updates freed —
by the instantiation's own `err:` block (the unlinked in-flight update and
the partially built chain) together with the page discard — are exactly the
updates allocated during the call, so the ref owns no page memory and no
update chain when the error propagates. -/
theorem cacheRead_error_rollback (env : ReadEnv) (ref0 : WTRef) (out : CacheReadOut)
    (hpage : ref0.page = none) (hout : wtCacheRead env ref0 = out)
    (herr : out.ok = false) :
    out.ref.state = ref0.state ∧ out.ref.page = none ∧
      out.freed.Perm out.alloc ∧
      (ref0.state = RefState.disk ∨ ref0.state = RefState.deleted) := by
  rw [wtCacheRead] at hout
  rcases hw : (if ref0.state = RefState.disk then some RefState.disk
      else if ref0.state = RefState.deleted then some RefState.deleted
      else none) with _ | prev
  · rw [hw] at hout
    try dsimp only at hout
    subst hout
    simp at herr
  · rw [hw] at hout
    try dsimp only at hout
    have hpd : prev = ref0.state ∧
        (ref0.state = RefState.disk ∨ ref0.state = RefState.deleted) := by
      split at hw <;> simp_all
    obtain ⟨hprev, hds⟩ := hpd
    subst hprev
    by_cases hri : env.refInfoOk = false
    · rw [if_pos hri] at hout
      subst hout
      refine ⟨by simp [cacheReadErr], by simp [cacheReadErr], ?_, hds⟩
      simp [cacheReadErr, hpage]
    · rw [if_neg hri] at hout
      rcases haddr : ref0.addr with _ | a <;> rw [haddr] at hout <;> try dsimp only at hout
      · by_cases hnl : env.newLeafOk = false
        · rw [if_pos hnl] at hout
          subst hout
          refine ⟨by simp [cacheReadErr], by simp [cacheReadErr], ?_, hds⟩
          simp [cacheReadErr, hpage]
        · rw [if_neg hnl] at hout
          try dsimp only at hout
          by_cases hv : env.verboseOk = false
          · rw [if_pos hv] at hout
            subst hout
            refine ⟨by simp [cacheReadErr], by simp [cacheReadErr], ?_, hds⟩
            simp [cacheReadErr, chainsUpds]
          · rw [if_neg hv] at hout
            subst hout
            simp at herr
      · rcases hbt : env.btRead with u | img <;> rw [hbt] at hout <;> try dsimp only at hout
        · subst hout
          refine ⟨by simp [cacheReadErr], by simp [cacheReadErr], ?_, hds⟩
          simp [cacheReadErr, hpage]
        · by_cases hpi : env.pageInmemOk = false
          · rw [if_pos hpi] at hout
            subst hout
            refine ⟨by simp [cacheReadErr], by simp [cacheReadErr], ?_, hds⟩
            simp [cacheReadErr]
          · rw [if_neg hpi] at hout
            try dsimp only at hout
            by_cases hdel : ref0.state = RefState.deleted ∧ env.deleteInstOk = false
            · rw [if_pos hdel] at hout
              subst hout
              refine ⟨by simp [cacheReadErr], by simp [cacheReadErr], ?_, hds⟩
              simp [cacheReadErr, chainsUpds]
            · rw [if_neg hdel] at hout
              by_cases hlas : (img.lasFlag && env.lasActive) = true
              · rw [if_pos hlas] at hout
                have hinv := lasPageInstantiateG_alloc img.ptype env.va env.dec
                  env.allocU env.flushOk env.table env.btreeId a
                rcases hli : lasPageInstantiateG img.ptype env.va env.dec env.allocU
                    env.flushOk env.table env.btreeId a with f | r <;>
                  rw [hli] at hout hinv <;> simp only [finInv] at hinv
                · subst hout
                  refine ⟨by simp [cacheReadErr], by simp [cacheReadErr], ?_, hds⟩
                  simp only [cacheReadErr]
                  rw [hinv]
                  exact perm_rot f.freedUpd f.freedChain (chainsUpds f.chains)
                · try dsimp only at hout
                  by_cases hv : env.verboseOk = false
                  · rw [if_pos hv] at hout
                    subst hout
                    refine ⟨by simp [cacheReadErr], by simp [cacheReadErr], ?_, hds⟩
                    simp [cacheReadErr, hinv]
                  · rw [if_neg hv] at hout
                    subst hout
                    simp at herr
              · rw [if_neg hlas] at hout
                by_cases hv : env.verboseOk = false
                · rw [if_pos hv] at hout
                  subst hout
                  refine ⟨by simp [cacheReadErr], by simp [cacheReadErr], ?_, hds⟩
                  simp [cacheReadErr, chainsUpds]
                · rw [if_neg hv] at hout
                  subst hout
                  simp at herr

/-- C6 witness: with the block read failing on a `DISK` ref, the read fails,
the state is restored to `DISK`, no page is attached, and nothing leaks. -/
theorem cacheRead_error_rollback_witness :
    (wtCacheRead exEnv exRef).ref.state = exRef.state ∧
      (wtCacheRead exEnv exRef).ref.page = none ∧
      ((wtCacheRead exEnv exRef).freed).Perm ((wtCacheRead exEnv exRef).alloc) ∧
      (exRef.state = RefState.disk ∨ exRef.state = RefState.deleted) :=
  cacheRead_error_rollback exEnv exRef (wtCacheRead exEnv exRef) rfl rfl (by decide)

/-- An update held by a chain of a chain list is in the flattened list. -/
theorem mem_chainsUpds :
    ∀ (cs : List (SlotKey × List WTUpdate)) (c : SlotKey × List WTUpdate)
      (u : WTUpdate), c ∈ cs → u ∈ c.2 → u ∈ chainsUpds cs := by
  intro cs
  induction cs with
  | nil => intro c u hc; simp at hc
  | cons d t ih =>
    intro c u hc hu
    rcases List.mem_cons.mp hc with rfl | hc'
    · exact List.mem_append.mpr (Or.inl hu)
    · exact List.mem_append.mpr (Or.inr (ih c u hc' hu))

/-- On an execution where allocation always succeeds, a step allocates at
most the update built from the (visibility-surviving) entry it examined. -/
theorem instStep_alloc_src (pt : PageType) (va : Nat → Bool)
    (dec : List Nat → Except Unit Nat) (flushOk : SlotKey → Bool) (e : LasEntry)
    (st : InstState) :
    ∀ u ∈ stepAllocL (instStep pt va dec okAlloc flushOk e st),
      u ∈ st.alloc ∨ (va e.lasTxnid = false ∧ u = toUpd e) := by
  intro u hu
  unfold instStep at hu
  by_cases hva : va e.lasTxnid
  · simp [hva, stepAllocL] at hu
    exact Or.inl hu
  · rw [Bool.not_eq_true] at hva
    simp only [hva, Bool.false_eq_true, if_false, okAlloc] at hu
    cases pt
    · cases hd : dec e.lasKey with
      | error v =>
        rw [hd] at hu
        simp [stepAllocL, instFail] at hu
        rcases hu with h | h
        · exact Or.inl h
        · exact Or.inr ⟨hva, h⟩
      | ok recno =>
        rw [hd] at hu
        dsimp only at hu
        repeat' split at hu
        all_goals
          first
          | (simp [stepAllocL, instFail, appendUpd] at hu
             rcases hu with h | h
             · exact Or.inl h
             · exact Or.inr ⟨hva, h⟩)
    · cases hd : dec e.lasKey with
      | error v =>
        rw [hd] at hu
        simp [stepAllocL, instFail] at hu
        rcases hu with h | h
        · exact Or.inl h
        · exact Or.inr ⟨hva, h⟩
      | ok recno =>
        rw [hd] at hu
        dsimp only at hu
        repeat' split at hu
        all_goals
          first
          | (simp [stepAllocL, instFail, appendUpd] at hu
             rcases hu with h | h
             · exact Or.inl h
             · exact Or.inr ⟨hva, h⟩)
    · dsimp only at hu
      repeat' split at hu
      all_goals
        first
        | (simp [stepAllocL, instFail, appendUpd] at hu
           rcases hu with h | h
           · exact Or.inl h
           · exact Or.inr ⟨hva, h⟩)
    · simp [stepAllocL, instFail] at hu
      rcases hu with h | h
      · exact Or.inl h
      · exact Or.inr ⟨hva, h⟩

/-- The trailing flush allocates nothing. -/
theorem allocOf_instFinish (pt : PageType) (flushOk : SlotKey → Bool)
    (st : InstState) : allocOf (instFinish pt flushOk st) = st.alloc := by
  unfold instFinish
  by_cases h : st.firstUpd = []
  · simp [h, allocOf]
  · cases pt
    · by_cases hf : flushOk (SlotKey.col st.currentRecno) <;>
        simp [h, hf, allocOf, instFail]
    · by_cases hf : flushOk (SlotKey.col st.currentRecno) <;>
        simp [h, hf, allocOf, instFail]
    · by_cases hf : flushOk (SlotKey.row st.currentKey) <;>
        simp [h, hf, allocOf, instFail]
    · simp [h, allocOf, instFail]

/-- On an execution where allocation always succeeds, every update the scan
loop allocates comes from an entry that survived the visibility filter. -/
theorem instLoop_alloc_src (pt : PageType) (va : Nat → Bool)
    (dec : List Nat → Except Unit Nat) (flushOk : SlotKey → Bool) (readId : Nat)
    (addr : List Nat) :
    ∀ (es : List LasEntry) (st : InstState) (u : WTUpdate),
      u ∈ allocOf (instLoop pt va dec okAlloc flushOk readId addr es st) →
      u ∈ st.alloc ∨ ∃ e ∈ es, va e.lasTxnid = false ∧ u = toUpd e := by
  intro es
  induction es with
  | nil =>
    intro st u hu
    rw [instLoop, allocOf_instFinish] at hu
    exact Or.inl hu
  | cons a t ih =>
    intro st u hu
    rw [instLoop] at hu
    by_cases ha : matchesBlock readId addr a
    · rw [if_pos ha] at hu
      rcases hstep : instStep pt va dec okAlloc flushOk a st with f0 | st0 <;>
        rw [hstep] at hu
      · have := instStep_alloc_src pt va dec flushOk a st u
          (by rw [hstep]; simpa [stepAllocL] using hu)
        rcases this with h | ⟨hv, hEq⟩
        · exact Or.inl h
        · exact Or.inr ⟨a, List.mem_cons_self a t, hv, hEq⟩
      · rcases ih st0 u hu with h | ⟨e, he, hv, hEq⟩
        · have := instStep_alloc_src pt va dec flushOk a st u
            (by rw [hstep]; simpa [stepAllocL] using h)
          rcases this with h' | ⟨hv, hEq⟩
          · exact Or.inl h'
          · exact Or.inr ⟨a, List.mem_cons_self a t, hv, hEq⟩
        · exact Or.inr ⟨e, List.mem_cons_of_mem a he, hv, hEq⟩
    · rw [if_neg ha, allocOf_instFinish] at hu
      exact Or.inl hu

/-- C7: on an execution of `__las_page_instantiate` where every external call
succeeds, and on a lookaside table whose values are stamped with the key's
transaction id, every allocated update — in particular every record of every
materialized chain — comes from an entry that was not globally visible when
filtered, so no chain contains a record whose transaction id was globally
visible at that moment. -/
theorem lasInstantiate_visibility (pt : PageType) (va : Nat → Bool)
    (dec : List Nat → Except Unit Nat) (table : List LasEntry) (readId : Nat)
    (addr : List Nat) (r : InstOk)
    (hids : ∀ e ∈ table, e.updTxnid = e.lasTxnid)
    (hok : lasPageInstantiate pt va dec table readId addr = .ok r) :
    (∀ u ∈ r.alloc, va u.txnid = false) ∧
      (∀ c ∈ r.chains, ∀ u ∈ c.2, va u.txnid = false) := by
  have halloc : ∀ u ∈ r.alloc, va u.txnid = false := by
    intro u hu
    rw [lasPageInstantiate, lasPageInstantiateG] at hok
    rcases hsn : searchNearStart table ⟨readId, addr, [], 0, 0⟩ with _ | i <;>
      rw [hsn] at hok <;> dsimp only at hok
    · have := allocOf_instFinish pt (fun _ => true) initInstState
      rw [hok] at this
      simp [allocOf, initInstState] at this
      rw [this] at hu
      simp at hu
    · have := instLoop_alloc_src pt va dec (fun _ => true) readId addr
        (table.drop i) initInstState u (by rw [hok]; simpa [allocOf] using hu)
      rcases this with h | ⟨e, he, hv, hEq⟩
      · simp [initInstState] at h
      · have htab : e ∈ table := List.mem_of_mem_drop he
        have : u.txnid = e.lasTxnid := by
          rw [hEq]
          simp [toUpd, hids e htab]
        rw [this]
        exact hv
  have hacc := lasPageInstantiateG_alloc pt va dec okAlloc (fun _ => true)
    table readId addr
  rw [lasPageInstantiate] at hok
  rw [hok] at hacc
  simp only [finInv] at hacc
  refine ⟨halloc, ?_⟩
  intro c hc u hu
  apply halloc
  rw [hacc]
  exact mem_chainsUpds r.chains c u hc hu

/-- C7 witness: in the instantiation of `exTable`, the chain under key `[1]`
holds the update of txn `12`, which was not globally visible. -/
theorem lasInstantiate_visibility_witness :
    exVa ({ txnid := 12, value := some [] } : WTUpdate).txnid = false :=
  (lasInstantiate_visibility PageType.rowLeaf exVa exDec exTable 5 [2] exInstOk
      (by decide) (by decide)).2
    (SlotKey.row [1],
      [{ txnid := 12, value := some [] }, { txnid := 14, value := some [] }])
    (by decide) { txnid := 12, value := some [] } (by decide)

/-- A step on a globally visible entry only records it. -/
theorem instStep_skip (pt : PageType) (va : Nat → Bool)
    (dec : List Nat → Except Unit Nat) (flushOk : SlotKey → Bool) (e : LasEntry)
    (st : InstState) (hva : va e.lasTxnid = true) :
    instStep pt va dec okAlloc flushOk e st =
      .ok { st with scanned := st.scanned ++ [e] } := by
  simp [instStep, hva]

/-- A surviving row entry with the current key is appended at the tail. -/
theorem instStep_row_same (va : Nat → Bool) (dec : List Nat → Except Unit Nat)
    (flushOk : SlotKey → Bool) (e : LasEntry) (st : InstState)
    (hva : va e.lasTxnid = false) (hk : st.currentKey = e.lasKey) :
    instStep PageType.rowLeaf va dec okAlloc flushOk e st =
      .ok { st with
            scanned := st.scanned ++ [e], alloc := st.alloc ++ [toUpd e],
            totalIncr := st.totalIncr + allocIncr e,
            firstUpd := st.firstUpd ++ [toUpd e] } := by
  simp [instStep, hva, okAlloc, hk, appendUpd]

/-- A surviving row entry with a new key and no open chain starts the chain
under the new key; nothing is flushed. -/
theorem instStep_row_newKey (va : Nat → Bool) (dec : List Nat → Except Unit Nat)
    (flushOk : SlotKey → Bool) (e : LasEntry) (st : InstState)
    (hva : va e.lasTxnid = false) (hk : ¬ st.currentKey = e.lasKey)
    (hfu : st.firstUpd = []) :
    instStep PageType.rowLeaf va dec okAlloc flushOk e st =
      .ok { st with
            scanned := st.scanned ++ [e], alloc := st.alloc ++ [toUpd e],
            totalIncr := st.totalIncr + allocIncr e,
            currentKey := e.lasKey, firstUpd := [toUpd e] } := by
  simp [instStep, hva, okAlloc, hk, hfu, appendUpd]

/-- A surviving row entry with a new key flushes the open chain into the page
under the old key and starts a new chain under the new key. -/
theorem instStep_row_flush (va : Nat → Bool) (dec : List Nat → Except Unit Nat)
    (e : LasEntry) (st : InstState)
    (hva : va e.lasTxnid = false) (hk : ¬ st.currentKey = e.lasKey)
    (hfu : ¬ st.firstUpd = []) :
    instStep PageType.rowLeaf va dec okAlloc (fun _ => true) e st =
      .ok { st with
            scanned := st.scanned ++ [e], alloc := st.alloc ++ [toUpd e],
            totalIncr := st.totalIncr + allocIncr e,
            chains := st.chains ++ [(SlotKey.row st.currentKey, st.firstUpd)],
            firstUpd := [toUpd e], currentKey := e.lasKey } := by
  simp [instStep, hva, okAlloc, hk, hfu, appendUpd]

/-- A surviving column entry with the current record number is appended at
the tail. -/
theorem instStep_col_same (pt : PageType) (va : Nat → Bool)
    (dec : List Nat → Except Unit Nat) (flushOk : SlotKey → Bool) (e : LasEntry)
    (st : InstState) (recno : Nat)
    (hcol : pt = PageType.colFix ∨ pt = PageType.colVar)
    (hva : va e.lasTxnid = false) (hd : dec e.lasKey = Except.ok recno)
    (hk : st.currentRecno = recno) :
    instStep pt va dec okAlloc flushOk e st =
      .ok { st with
            scanned := st.scanned ++ [e], alloc := st.alloc ++ [toUpd e],
            totalIncr := st.totalIncr + allocIncr e,
            firstUpd := st.firstUpd ++ [toUpd e] } := by
  rcases hcol with rfl | rfl <;> simp [instStep, hva, okAlloc, hd, hk, appendUpd]

/-- A surviving column entry with a new record number and no open chain
starts the chain under the new record number; nothing is flushed. -/
theorem instStep_col_newKey (pt : PageType) (va : Nat → Bool)
    (dec : List Nat → Except Unit Nat) (flushOk : SlotKey → Bool) (e : LasEntry)
    (st : InstState) (recno : Nat)
    (hcol : pt = PageType.colFix ∨ pt = PageType.colVar)
    (hva : va e.lasTxnid = false) (hd : dec e.lasKey = Except.ok recno)
    (hk : ¬ st.currentRecno = recno) (hfu : st.firstUpd = []) :
    instStep pt va dec okAlloc flushOk e st =
      .ok { st with
            scanned := st.scanned ++ [e], alloc := st.alloc ++ [toUpd e],
            totalIncr := st.totalIncr + allocIncr e,
            currentRecno := recno, firstUpd := [toUpd e] } := by
  rcases hcol with rfl | rfl <;> simp [instStep, hva, okAlloc, hd, hk, hfu, appendUpd]

/-- A surviving column entry with a new record number flushes the open chain
into the page under the old record number and starts a new chain. -/
theorem instStep_col_flush (pt : PageType) (va : Nat → Bool)
    (dec : List Nat → Except Unit Nat) (e : LasEntry) (st : InstState) (recno : Nat)
    (hcol : pt = PageType.colFix ∨ pt = PageType.colVar)
    (hva : va e.lasTxnid = false) (hd : dec e.lasKey = Except.ok recno)
    (hk : ¬ st.currentRecno = recno) (hfu : ¬ st.firstUpd = []) :
    instStep pt va dec okAlloc (fun _ => true) e st =
      .ok { st with
            scanned := st.scanned ++ [e], alloc := st.alloc ++ [toUpd e],
            totalIncr := st.totalIncr + allocIncr e,
            chains := st.chains ++ [(SlotKey.col st.currentRecno, st.firstUpd)],
            firstUpd := [toUpd e], currentRecno := recno } := by
  rcases hcol with rfl | rfl <;> simp [instStep, hva, okAlloc, hd, hk, hfu, appendUpd]

/-- With no open chain, the trailing flush returns the accumulated chains. -/
theorem instFinish_empty (pt : PageType) (flushOk : SlotKey → Bool) (st : InstState)
    (h : st.firstUpd = []) :
    instFinish pt flushOk st =
      .ok { chains := st.chains, totalIncr := st.totalIncr, scanned := st.scanned,
            alloc := st.alloc } := by
  simp [instFinish, h]

/-- With an open chain and successful inserts, the trailing flush attaches
the open chain under the current slot. -/
theorem instFinish_flush (pt : PageType) (st : InstState)
    (hpt : pt ≠ PageType.other) (h : ¬ st.firstUpd = []) :
    instFinish pt (fun _ => true) st =
      .ok { chains := st.chains ++ [(stateSlot pt st, st.firstUpd)],
            totalIncr := st.totalIncr, scanned := st.scanned, alloc := st.alloc } := by
  cases pt
  · simp [instFinish, h, stateSlot]
  · simp [instFinish, h, stateSlot]
  · simp [instFinish, h, stateSlot]
  · exact absurd rfl hpt

/-- The current slot only depends on the current key and record number. -/
theorem stateSlot_congr (pt : PageType) (st st' : InstState)
    (h1 : st'.currentKey = st.currentKey) (h2 : st'.currentRecno = st.currentRecno) :
    stateSlot pt st' = stateSlot pt st := by
  cases pt <;> simp [stateSlot, h1, h2]

/-- Chunking loses no record: the runs concatenate back to the input. -/
theorem concatGroups_groupContE (keyOf : LasEntry → SlotKey) :
    ∀ (t : List LasEntry) (k : SlotKey) (g : List LasEntry),
      concatGroups (groupContE keyOf k g t) = g ++ t := by
  intro t
  induction t with
  | nil => intro k g; simp [groupContE, concatGroups]
  | cons e t' ih =>
    intro k g
    by_cases h : keyOf e = k
    · simp [groupContE, h, ih]
    · simp [groupContE, h, concatGroups, ih]

/-- Chunking loses no record: the runs concatenate back to the input. -/
theorem concatGroups_groupRunsE (keyOf : LasEntry → SlotKey) (es : List LasEntry) :
    concatGroups (groupRunsE keyOf es) = es := by
  cases es with
  | nil => simp [groupRunsE, concatGroups]
  | cons e t => simpa [groupRunsE] using concatGroups_groupContE keyOf t (keyOf e) [e]

/-- Every record of a run carries the run's key. -/
theorem groupContE_keys (keyOf : LasEntry → SlotKey) :
    ∀ (t : List LasEntry) (k : SlotKey) (g : List LasEntry),
      (∀ e ∈ g, keyOf e = k) →
      ∀ p ∈ groupContE keyOf k g t, ∀ e ∈ p.2, keyOf e = p.1 := by
  intro t
  induction t with
  | nil =>
    intro k g hg p hp e he
    simp [groupContE] at hp
    subst hp
    exact hg e he
  | cons a t' ih =>
    intro k g hg p hp e he
    by_cases h : keyOf a = k
    · rw [groupContE, if_pos h] at hp
      refine ih k (g ++ [a]) ?_ p hp e he
      intro x hx
      rcases List.mem_append.mp hx with hx' | hx'
      · exact hg x hx'
      · have : x = a := by simpa using hx'
        exact this ▸ h
    · rw [groupContE, if_neg h] at hp
      rcases List.mem_cons.mp hp with rfl | hp'
      · exact hg e he
      · exact ih (keyOf a) [a] (by simp) p hp' e he

/-- Every record of a run carries the run's key. -/
theorem groupRunsE_keys (keyOf : LasEntry → SlotKey) (es : List LasEntry) :
    ∀ p ∈ groupRunsE keyOf es, ∀ e ∈ p.2, keyOf e = p.1 := by
  cases es with
  | nil => simp [groupRunsE]
  | cons e t => exact groupContE_keys keyOf t (keyOf e) [e] (by simp)

/-- The first run produced by the chunking continuation carries the key it
was opened with. -/
theorem groupContE_head_key (keyOf : LasEntry → SlotKey) :
    ∀ (t : List LasEntry) (k : SlotKey) (g : List LasEntry) (p : SlotKey × List LasEntry),
      (groupContE keyOf k g t).head? = some p → p.1 = k := by
  intro t
  induction t with
  | nil =>
    intro k g p hp
    simp [groupContE] at hp
    rw [← hp]
  | cons a t' ih =>
    intro k g p hp
    by_cases h : keyOf a = k
    · rw [groupContE, if_pos h] at hp
      exact ih k (g ++ [a]) p hp
    · rw [groupContE, if_neg h] at hp
      simp at hp
      rw [← hp]

/-- Adjacent runs carry different keys: each run is maximal. -/
theorem groupContE_chain_ne (keyOf : LasEntry → SlotKey) :
    ∀ (t : List LasEntry) (k : SlotKey) (g : List LasEntry),
      (groupContE keyOf k g t).Chain' (fun p q => p.1 ≠ q.1) := by
  intro t
  induction t with
  | nil => intro k g; simp [groupContE]
  | cons a t' ih =>
    intro k g
    by_cases h : keyOf a = k
    · rw [groupContE, if_pos h]
      exact ih k (g ++ [a])
    · rw [groupContE, if_neg h]
      rw [List.chain'_cons']
      refine ⟨?_, ih (keyOf a) [a]⟩
      intro q hq
      have := groupContE_head_key keyOf t' (keyOf a) [a] q hq
      simp only [this]
      exact fun hkk => h hkk.symm

/-- Adjacent runs carry different keys: each run is maximal. -/
theorem groupRunsE_chain_ne (keyOf : LasEntry → SlotKey) (es : List LasEntry) :
    (groupRunsE keyOf es).Chain' (fun p q => p.1 ≠ q.1) := by
  cases es with
  | nil => simp [groupRunsE]
  | cons e t => exact groupContE_chain_ne keyOf t (keyOf e) [e]

/-- When records of equal key are pairwise ascending in `(txn_id, counter)`,
every run of the chunking is ascending in `(txn_id, counter)`. -/
theorem groupContE_pairwise (keyOf : LasEntry → SlotKey) :
    ∀ (t : List LasEntry) (k : SlotKey) (g : List LasEntry),
      (g ++ t).Pairwise (fun a b => keyOf a = keyOf b → tcLt a b) →
      (∀ e ∈ g, keyOf e = k) →
      ∀ p ∈ groupContE keyOf k g t, p.2.Pairwise tcLt := by
  intro t
  induction t with
  | nil =>
    intro k g hp hg p hmem
    simp [groupContE] at hmem
    subst hmem
    have hpg : g.Pairwise (fun a b => keyOf a = keyOf b → tcLt a b) :=
      hp.sublist (by simp)
    exact hpg.imp_of_mem (fun ha hb h => h ((hg _ ha).trans (hg _ hb).symm))
  | cons a t' ih =>
    intro k g hp hg p hmem
    by_cases h : keyOf a = k
    · rw [groupContE, if_pos h] at hmem
      refine ih k (g ++ [a]) ?_ ?_ p hmem
      · have : g ++ a :: t' = (g ++ [a]) ++ t' := by simp
        exact this ▸ hp
      · intro x hx
        rcases List.mem_append.mp hx with hx' | hx'
        · exact hg x hx'
        · have : x = a := by simpa using hx'
          exact this ▸ h
    · rw [groupContE, if_neg h] at hmem
      rcases List.mem_cons.mp hmem with rfl | hmem'
      · have hpg : g.Pairwise (fun a b => keyOf a = keyOf b → tcLt a b) :=
          hp.sublist (by simp)
        exact hpg.imp_of_mem (fun ha hb hh => hh ((hg _ ha).trans (hg _ hb).symm))
      · refine ih (keyOf a) [a] ?_ (by simp) p hmem'
        exact hp.sublist (by simp)

/-- When records of equal key are pairwise ascending in `(txn_id, counter)`,
every run of the chunking is ascending in `(txn_id, counter)`. -/
theorem groupRunsE_pairwise (keyOf : LasEntry → SlotKey) (es : List LasEntry)
    (hp : es.Pairwise (fun a b => keyOf a = keyOf b → tcLt a b)) :
    ∀ p ∈ groupRunsE keyOf es, p.2.Pairwise tcLt := by
  cases es with
  | nil => simp [groupRunsE]
  | cons e t => exact groupContE_pairwise keyOf t (keyOf e) [e] hp (by simp)

/-- With an open chain holding exactly the updates of the run `g` under the
current slot, the scan loop (on an execution where every external call
succeeds) produces the chains of the continued chunking of the surviving
scan region, appended after the chains already inserted. -/
theorem instLoop_chains_run (pt : PageType) (va : Nat → Bool)
    (dec : List Nat → Except Unit Nat) (readId : Nat) (addr : List Nat)
    (hpt : pt ≠ PageType.other) :
    ∀ (es : List LasEntry) (st : InstState) (g : List LasEntry),
      (∀ e ∈ es, ∃ n, dec e.lasKey = Except.ok n) →
      g ≠ [] →
      st.firstUpd = g.map toUpd →
      ∃ r, instLoop pt va dec okAlloc (fun _ => true) readId addr es st = .ok r ∧
        r.chains = st.chains ++
          (groupContE (keyOfPt pt dec) (stateSlot pt st) g
            (survivors va (es.takeWhile (matchesBlock readId addr)))).map mapChain := by
  intro es
  induction es with
  | nil =>
    intro st g hdec hg hfu
    have hne : ¬ st.firstUpd = [] := by simp [hfu, hg]
    refine ⟨_, by rw [instLoop, instFinish_flush pt st hpt hne], ?_⟩
    simp [survivors, groupContE, mapChain, hfu]
  | cons a t ih =>
    intro st g hdec hg hfu
    have hdect : ∀ e ∈ t, ∃ n, dec e.lasKey = Except.ok n :=
      fun e he => hdec e (List.mem_cons_of_mem a he)
    have hne : ¬ st.firstUpd = [] := by simp [hfu, hg]
    by_cases hm : matchesBlock readId addr a
    · by_cases hva : va a.lasTxnid
      · rw [instLoop, if_pos hm, instStep_skip pt va dec _ a st hva]
        dsimp only
        obtain ⟨r, hr, hch⟩ := ih { st with scanned := st.scanned ++ [a] } g hdect hg hfu
        refine ⟨r, hr, ?_⟩
        rw [hch, stateSlot_congr pt st { st with scanned := st.scanned ++ [a] } rfl rfl]
        simp [survivors, List.takeWhile_cons, hm, List.filter_cons, hva]
      · have hvaf : va a.lasTxnid = false := by simpa using hva
        cases pt
        · obtain ⟨n, hd⟩ := hdec a (List.mem_cons_self a t)
          by_cases hk : st.currentRecno = n
          · rw [instLoop, if_pos hm,
              instStep_col_same PageType.colFix va dec _ a st n (Or.inl rfl) hvaf hd hk]
            dsimp only
            obtain ⟨r, hr, hch⟩ := ih { st with
                scanned := st.scanned ++ [a], alloc := st.alloc ++ [toUpd a],
                totalIncr := st.totalIncr + allocIncr a,
                firstUpd := st.firstUpd ++ [toUpd a] } (g ++ [a]) hdect (by simp) (by simp [hfu])
            refine ⟨r, hr, ?_⟩
            rw [hch]
            simp only [survivors, List.takeWhile_cons, hm, if_true, List.filter_cons,
              hvaf, Bool.not_false, stateSlot]
            rw [show groupContE (keyOfPt PageType.colFix dec) (SlotKey.col st.currentRecno)
                g (a :: (t.takeWhile (matchesBlock readId addr)).filter
                  (fun e => !va e.lasTxnid)) =
              groupContE (keyOfPt PageType.colFix dec) (SlotKey.col st.currentRecno)
                (g ++ [a]) ((t.takeWhile (matchesBlock readId addr)).filter
                  (fun e => !va e.lasTxnid)) from by
                rw [groupContE, if_pos (by simp [keyOfPt, hd, hk])]]
          · rw [instLoop, if_pos hm,
              instStep_col_flush PageType.colFix va dec a st n (Or.inl rfl) hvaf hd hk hne]
            dsimp only
            obtain ⟨r, hr, hch⟩ := ih { st with
                scanned := st.scanned ++ [a], alloc := st.alloc ++ [toUpd a],
                totalIncr := st.totalIncr + allocIncr a,
                chains := st.chains ++ [(SlotKey.col st.currentRecno, st.firstUpd)],
                firstUpd := [toUpd a], currentRecno := n } [a] hdect (by simp) (by simp)
            refine ⟨r, hr, ?_⟩
            rw [hch]
            simp only [survivors, List.takeWhile_cons, hm, if_true, List.filter_cons,
              hvaf, Bool.not_false, stateSlot]
            rw [show groupContE (keyOfPt PageType.colFix dec) (SlotKey.col st.currentRecno)
                g (a :: (t.takeWhile (matchesBlock readId addr)).filter
                  (fun e => !va e.lasTxnid)) =
              (SlotKey.col st.currentRecno, g) ::
                groupContE (keyOfPt PageType.colFix dec)
                  (keyOfPt PageType.colFix dec a) [a]
                  ((t.takeWhile (matchesBlock readId addr)).filter
                    (fun e => !va e.lasTxnid)) from by
                rw [groupContE,
                  if_neg (by simp [keyOfPt, hd]; exact fun h => hk h.symm)]]
            simp [mapChain, hfu, keyOfPt, hd]
        · obtain ⟨n, hd⟩ := hdec a (List.mem_cons_self a t)
          by_cases hk : st.currentRecno = n
          · rw [instLoop, if_pos hm,
              instStep_col_same PageType.colVar va dec _ a st n (Or.inr rfl) hvaf hd hk]
            dsimp only
            obtain ⟨r, hr, hch⟩ := ih { st with
                scanned := st.scanned ++ [a], alloc := st.alloc ++ [toUpd a],
                totalIncr := st.totalIncr + allocIncr a,
                firstUpd := st.firstUpd ++ [toUpd a] } (g ++ [a]) hdect (by simp) (by simp [hfu])
            refine ⟨r, hr, ?_⟩
            rw [hch]
            simp only [survivors, List.takeWhile_cons, hm, if_true, List.filter_cons,
              hvaf, Bool.not_false, stateSlot]
            rw [show groupContE (keyOfPt PageType.colVar dec) (SlotKey.col st.currentRecno)
                g (a :: (t.takeWhile (matchesBlock readId addr)).filter
                  (fun e => !va e.lasTxnid)) =
              groupContE (keyOfPt PageType.colVar dec) (SlotKey.col st.currentRecno)
                (g ++ [a]) ((t.takeWhile (matchesBlock readId addr)).filter
                  (fun e => !va e.lasTxnid)) from by
                rw [groupContE, if_pos (by simp [keyOfPt, hd, hk])]]
          · rw [instLoop, if_pos hm,
              instStep_col_flush PageType.colVar va dec a st n (Or.inr rfl) hvaf hd hk hne]
            dsimp only
            obtain ⟨r, hr, hch⟩ := ih { st with
                scanned := st.scanned ++ [a], alloc := st.alloc ++ [toUpd a],
                totalIncr := st.totalIncr + allocIncr a,
                chains := st.chains ++ [(SlotKey.col st.currentRecno, st.firstUpd)],
                firstUpd := [toUpd a], currentRecno := n } [a] hdect (by simp) (by simp)
            refine ⟨r, hr, ?_⟩
            rw [hch]
            simp only [survivors, List.takeWhile_cons, hm, if_true, List.filter_cons,
              hvaf, Bool.not_false, stateSlot]
            rw [show groupContE (keyOfPt PageType.colVar dec) (SlotKey.col st.currentRecno)
                g (a :: (t.takeWhile (matchesBlock readId addr)).filter
                  (fun e => !va e.lasTxnid)) =
              (SlotKey.col st.currentRecno, g) ::
                groupContE (keyOfPt PageType.colVar dec)
                  (keyOfPt PageType.colVar dec a) [a]
                  ((t.takeWhile (matchesBlock readId addr)).filter
                    (fun e => !va e.lasTxnid)) from by
                rw [groupContE,
                  if_neg (by simp [keyOfPt, hd]; exact fun h => hk h.symm)]]
            simp [mapChain, hfu, keyOfPt, hd]
        · by_cases hk : st.currentKey = a.lasKey
          · rw [instLoop, if_pos hm, instStep_row_same va dec _ a st hvaf hk]
            dsimp only
            obtain ⟨r, hr, hch⟩ := ih { st with
                scanned := st.scanned ++ [a], alloc := st.alloc ++ [toUpd a],
                totalIncr := st.totalIncr + allocIncr a,
                firstUpd := st.firstUpd ++ [toUpd a] } (g ++ [a]) hdect (by simp) (by simp [hfu])
            refine ⟨r, hr, ?_⟩
            rw [hch]
            simp only [survivors, List.takeWhile_cons, hm, if_true, List.filter_cons,
              hvaf, Bool.not_false, stateSlot]
            rw [show groupContE (keyOfPt PageType.rowLeaf dec) (SlotKey.row st.currentKey)
                g (a :: (t.takeWhile (matchesBlock readId addr)).filter
                  (fun e => !va e.lasTxnid)) =
              groupContE (keyOfPt PageType.rowLeaf dec) (SlotKey.row st.currentKey)
                (g ++ [a]) ((t.takeWhile (matchesBlock readId addr)).filter
                  (fun e => !va e.lasTxnid)) from by
                rw [groupContE, if_pos (by simp [keyOfPt, hk])]]
          · rw [instLoop, if_pos hm, instStep_row_flush va dec a st hvaf hk hne]
            dsimp only
            obtain ⟨r, hr, hch⟩ := ih { st with
                scanned := st.scanned ++ [a], alloc := st.alloc ++ [toUpd a],
                totalIncr := st.totalIncr + allocIncr a,
                chains := st.chains ++ [(SlotKey.row st.currentKey, st.firstUpd)],
                firstUpd := [toUpd a], currentKey := a.lasKey } [a] hdect (by simp) (by simp)
            refine ⟨r, hr, ?_⟩
            rw [hch]
            simp only [survivors, List.takeWhile_cons, hm, if_true, List.filter_cons,
              hvaf, Bool.not_false, stateSlot]
            rw [show groupContE (keyOfPt PageType.rowLeaf dec) (SlotKey.row st.currentKey)
                g (a :: (t.takeWhile (matchesBlock readId addr)).filter
                  (fun e => !va e.lasTxnid)) =
              (SlotKey.row st.currentKey, g) ::
                groupContE (keyOfPt PageType.rowLeaf dec)
                  (keyOfPt PageType.rowLeaf dec a) [a]
                  ((t.takeWhile (matchesBlock readId addr)).filter
                    (fun e => !va e.lasTxnid)) from by
                rw [groupContE,
                  if_neg (by simp [keyOfPt]; exact fun h => hk h.symm)]]
            simp [mapChain, hfu, keyOfPt]
        · exact absurd rfl hpt
    · rw [instLoop, if_neg hm]
      refine ⟨_, instFinish_flush pt st hpt hne, ?_⟩
      simp [survivors, List.takeWhile_cons, hm, groupContE, mapChain, hfu]

/-- From a state with no open chain, the scan loop (on an execution where
every external call succeeds) produces exactly the chains of the maximal-run
chunking of the surviving scan region, appended after the chains already
inserted. -/
theorem instLoop_chains_start (pt : PageType) (va : Nat → Bool)
    (dec : List Nat → Except Unit Nat) (readId : Nat) (addr : List Nat)
    (hpt : pt ≠ PageType.other) :
    ∀ (es : List LasEntry) (st : InstState),
      (∀ e ∈ es, ∃ n, dec e.lasKey = Except.ok n) →
      st.firstUpd = [] →
      ∃ r, instLoop pt va dec okAlloc (fun _ => true) readId addr es st = .ok r ∧
        r.chains = st.chains ++
          (groupRunsE (keyOfPt pt dec)
            (survivors va (es.takeWhile (matchesBlock readId addr)))).map mapChain := by
  intro es
  induction es with
  | nil =>
    intro st hdec hfu
    refine ⟨_, by rw [instLoop, instFinish_empty pt _ st hfu], ?_⟩
    simp [survivors, groupRunsE]
  | cons a t ih =>
    intro st hdec hfu
    have hdect : ∀ e ∈ t, ∃ n, dec e.lasKey = Except.ok n :=
      fun e he => hdec e (List.mem_cons_of_mem a he)
    by_cases hm : matchesBlock readId addr a
    · by_cases hva : va a.lasTxnid
      · rw [instLoop, if_pos hm, instStep_skip pt va dec _ a st hva]
        dsimp only
        obtain ⟨r, hr, hch⟩ := ih { st with scanned := st.scanned ++ [a] } hdect hfu
        refine ⟨r, hr, ?_⟩
        rw [hch]
        simp [survivors, List.takeWhile_cons, hm, List.filter_cons, hva]
      · have hvaf : va a.lasTxnid = false := by simpa using hva
        cases pt
        · obtain ⟨n, hd⟩ := hdec a (List.mem_cons_self a t)
          by_cases hk : st.currentRecno = n
          · rw [instLoop, if_pos hm,
              instStep_col_same PageType.colFix va dec _ a st n (Or.inl rfl) hvaf hd hk]
            dsimp only
            obtain ⟨r, hr, hch⟩ := instLoop_chains_run PageType.colFix va dec readId addr
              hpt t { st with
                scanned := st.scanned ++ [a], alloc := st.alloc ++ [toUpd a],
                totalIncr := st.totalIncr + allocIncr a,
                firstUpd := st.firstUpd ++ [toUpd a] } [a] hdect (by simp)
              (by simp [hfu])
            refine ⟨r, hr, ?_⟩
            rw [hch]
            simp only [survivors, List.takeWhile_cons, hm, if_true, List.filter_cons,
              hvaf, Bool.not_false, stateSlot, groupRunsE]
            simp [keyOfPt, hd, hk]
          · rw [instLoop, if_pos hm,
              instStep_col_newKey PageType.colFix va dec _ a st n (Or.inl rfl) hvaf hd hk hfu]
            dsimp only
            obtain ⟨r, hr, hch⟩ := instLoop_chains_run PageType.colFix va dec readId addr
              hpt t { st with
                scanned := st.scanned ++ [a], alloc := st.alloc ++ [toUpd a],
                totalIncr := st.totalIncr + allocIncr a,
                currentRecno := n, firstUpd := [toUpd a] } [a] hdect (by simp) (by simp)
            refine ⟨r, hr, ?_⟩
            rw [hch]
            simp only [survivors, List.takeWhile_cons, hm, if_true, List.filter_cons,
              hvaf, Bool.not_false, stateSlot, groupRunsE]
            simp [keyOfPt, hd]
        · obtain ⟨n, hd⟩ := hdec a (List.mem_cons_self a t)
          by_cases hk : st.currentRecno = n
          · rw [instLoop, if_pos hm,
              instStep_col_same PageType.colVar va dec _ a st n (Or.inr rfl) hvaf hd hk]
            dsimp only
            obtain ⟨r, hr, hch⟩ := instLoop_chains_run PageType.colVar va dec readId addr
              hpt t { st with
                scanned := st.scanned ++ [a], alloc := st.alloc ++ [toUpd a],
                totalIncr := st.totalIncr + allocIncr a,
                firstUpd := st.firstUpd ++ [toUpd a] } [a] hdect (by simp)
              (by simp [hfu])
            refine ⟨r, hr, ?_⟩
            rw [hch]
            simp only [survivors, List.takeWhile_cons, hm, if_true, List.filter_cons,
              hvaf, Bool.not_false, stateSlot, groupRunsE]
            simp [keyOfPt, hd, hk]
          · rw [instLoop, if_pos hm,
              instStep_col_newKey PageType.colVar va dec _ a st n (Or.inr rfl) hvaf hd hk hfu]
            dsimp only
            obtain ⟨r, hr, hch⟩ := instLoop_chains_run PageType.colVar va dec readId addr
              hpt t { st with
                scanned := st.scanned ++ [a], alloc := st.alloc ++ [toUpd a],
                totalIncr := st.totalIncr + allocIncr a,
                currentRecno := n, firstUpd := [toUpd a] } [a] hdect (by simp) (by simp)
            refine ⟨r, hr, ?_⟩
            rw [hch]
            simp only [survivors, List.takeWhile_cons, hm, if_true, List.filter_cons,
              hvaf, Bool.not_false, stateSlot, groupRunsE]
            simp [keyOfPt, hd]
        · by_cases hk : st.currentKey = a.lasKey
          · rw [instLoop, if_pos hm, instStep_row_same va dec _ a st hvaf hk]
            dsimp only
            obtain ⟨r, hr, hch⟩ := instLoop_chains_run PageType.rowLeaf va dec readId addr
              hpt t { st with
                scanned := st.scanned ++ [a], alloc := st.alloc ++ [toUpd a],
                totalIncr := st.totalIncr + allocIncr a,
                firstUpd := st.firstUpd ++ [toUpd a] } [a] hdect (by simp)
              (by simp [hfu])
            refine ⟨r, hr, ?_⟩
            rw [hch]
            simp only [survivors, List.takeWhile_cons, hm, if_true, List.filter_cons,
              hvaf, Bool.not_false, stateSlot, groupRunsE]
            simp [keyOfPt, hk]
          · rw [instLoop, if_pos hm, instStep_row_newKey va dec _ a st hvaf hk hfu]
            dsimp only
            obtain ⟨r, hr, hch⟩ := instLoop_chains_run PageType.rowLeaf va dec readId addr
              hpt t { st with
                scanned := st.scanned ++ [a], alloc := st.alloc ++ [toUpd a],
                totalIncr := st.totalIncr + allocIncr a,
                currentKey := a.lasKey, firstUpd := [toUpd a] } [a] hdect (by simp) (by simp)
            refine ⟨r, hr, ?_⟩
            rw [hch]
            simp only [survivors, List.takeWhile_cons, hm, if_true, List.filter_cons,
              hvaf, Bool.not_false, stateSlot, groupRunsE]
            simp [keyOfPt]
        · exact absurd rfl hpt
    · rw [instLoop, if_neg hm]
      refine ⟨_, instFinish_empty pt _ st hfu, ?_⟩
      simp [survivors, List.takeWhile_cons, hm, groupRunsE]

/-- C9: on an execution of `__las_page_instantiate` where every external call
succeeds, on a real page type, with the record-number decode succeeding, and
on a table whose equal-key records appear in ascending `(txn_id, counter)`
order, the instantiation succeeds and its chains are exactly the maximal runs
of consecutive equal-user-key survivors of the scan, in scan order (the key
being the decoded record number for column pages and the raw key bytes for
row pages): one chain per run (flushed at each key change and once after the
scan ends), appended at the tail so each chain lists its run's records in
scan order, every record of a chain carrying the chain's key, adjacent runs
having different keys, and each run ascending in `(txn_id, counter)`. -/
theorem lasInstantiate_chain_grouping (pt : PageType) (va : Nat → Bool)
    (dec : List Nat → Except Unit Nat) (table : List LasEntry) (readId : Nat)
    (addr : List Nat)
    (hpt : pt ≠ PageType.other)
    (hdec : ∀ e ∈ table, ∃ n, dec e.lasKey = Except.ok n)
    (hsort : table.Pairwise
      (fun a b => keyOfPt pt dec a = keyOfPt pt dec b → tcLt a b)) :
    ∃ r, lasPageInstantiate pt va dec table readId addr = .ok r ∧
      r.chains = (groupRunsE (keyOfPt pt dec)
          (survivors va (blockScanned table readId addr))).map mapChain ∧
      concatGroups (groupRunsE (keyOfPt pt dec)
          (survivors va (blockScanned table readId addr))) =
        survivors va (blockScanned table readId addr) ∧
      (∀ p ∈ groupRunsE (keyOfPt pt dec) (survivors va (blockScanned table readId addr)),
        ∀ e ∈ p.2, keyOfPt pt dec e = p.1) ∧
      (groupRunsE (keyOfPt pt dec)
          (survivors va (blockScanned table readId addr))).Chain'
        (fun p q => p.1 ≠ q.1) ∧
      (∀ p ∈ groupRunsE (keyOfPt pt dec) (survivors va (blockScanned table readId addr)),
        p.2.Pairwise tcLt) := by
  have hsub : (survivors va (blockScanned table readId addr)).Sublist table := by
    rw [blockScanned]
    rcases searchNearStart table ⟨readId, addr, [], 0, 0⟩ with _ | i
    · simp [survivors]
    · exact (List.filter_sublist _).trans
        ((List.takeWhile_sublist _).trans (List.drop_sublist i table))
  have hsv : (survivors va (blockScanned table readId addr)).Pairwise
      (fun a b => keyOfPt pt dec a = keyOfPt pt dec b → tcLt a b) :=
    hsort.sublist hsub
  rcases hsn : searchNearStart table ⟨readId, addr, [], 0, 0⟩ with _ | i
  · have hbs : blockScanned table readId addr = [] := by rw [blockScanned, hsn]
    refine ⟨{ chains := [], totalIncr := 0, scanned := [], alloc := [] },
      ?_, ?_, concatGroups_groupRunsE _ _, groupRunsE_keys _ _,
      groupRunsE_chain_ne _ _, groupRunsE_pairwise _ _ hsv⟩
    · rw [lasPageInstantiate, lasPageInstantiateG, hsn]
      exact instFinish_empty pt _ initInstState rfl
    · simp [hbs, survivors, groupRunsE]
  · have hbs : blockScanned table readId addr =
        (table.drop i).takeWhile (matchesBlock readId addr) := by
      rw [blockScanned, hsn]
    obtain ⟨r, hr, hch⟩ := instLoop_chains_start pt va dec readId addr hpt
      (table.drop i) initInstState (fun e he => hdec e (List.mem_of_mem_drop he)) rfl
    refine ⟨r, ?_, ?_, concatGroups_groupRunsE _ _, groupRunsE_keys _ _,
      groupRunsE_chain_ne _ _, groupRunsE_pairwise _ _ hsv⟩
    · rw [lasPageInstantiate, lasPageInstantiateG, hsn]
      exact hr
    · rw [hbs]
      simpa [initInstState] using hch

/-- C9 witness: the chains of the instantiation of `exTable` on a row-leaf
page are the two maximal runs `[1]` (txns `12`, `14`) and `[3]` (txn `13`),
mapped through update allocation. -/
theorem lasInstantiate_chain_grouping_witness :
    ∃ r, lasPageInstantiate PageType.rowLeaf exVa exDec exTable 5 [2] = .ok r ∧
      r.chains = (groupRunsE (keyOfPt PageType.rowLeaf exDec)
          (survivors exVa (blockScanned exTable 5 [2]))).map mapChain ∧
      concatGroups (groupRunsE (keyOfPt PageType.rowLeaf exDec)
          (survivors exVa (blockScanned exTable 5 [2]))) =
        survivors exVa (blockScanned exTable 5 [2]) ∧
      (∀ p ∈ groupRunsE (keyOfPt PageType.rowLeaf exDec)
          (survivors exVa (blockScanned exTable 5 [2])),
        ∀ e ∈ p.2, keyOfPt PageType.rowLeaf exDec e = p.1) ∧
      (groupRunsE (keyOfPt PageType.rowLeaf exDec)
          (survivors exVa (blockScanned exTable 5 [2]))).Chain'
        (fun p q => p.1 ≠ q.1) ∧
      (∀ p ∈ groupRunsE (keyOfPt PageType.rowLeaf exDec)
          (survivors exVa (blockScanned exTable 5 [2])),
        p.2.Pairwise tcLt) :=
  lasInstantiate_chain_grouping PageType.rowLeaf exVa exDec exTable 5 [2]
    (by decide) (fun e _ => ⟨0, rfl⟩) (by decide)

end WT
